import Mathlib

/-!
Verification of the request-normalization pipeline of the copilot-api
repository (src/routes/chat-completions/handler.ts and the context
truncation module it embeds).

Shallow embedding conventions:
* JS strings are modelled as `List Char` (one element per UTF-16 code
  unit; every literal appearing in the source is in the BMP, so code
  units coincide with characters).  `s.length` is `List.length`,
  `s.slice(0, n)` is `List.take n`, `s.slice(-n)` is `jsSliceNeg`
  (including the `slice(-0) = slice(0)` quirk), `+` is `++`, and the
  decimal rendering of a number is `Nat.repr`.
* JS number arithmetic on the quantities used here (lengths, token
  counts, the literal constants 0.9 / 0.6 / 0.3 / 0.15) is modelled by
  exact arithmetic: `Math.floor(a * (m / c) * 0.9)` is `a * m * 9 / (c * 10)`
  in `Nat`, `Math.ceil(n / 4)` is `(n + 3) / 4`, and
  `Math.floor(limit * 0.15)` is `limit * 15 / 100`.
* `undefined`-able fields are `Option`; JS truthiness of a string field
  (`undefined` and `""` are falsy) is tested explicitly.
* `Date.now()` / `Math.random()` fallback-id synthesis is modelled by
  passing the synthesized fallback string as an explicit argument.
* Logging (`consola.*`) and the counters used only for logging are
  dropped; they do not affect any returned value.
-/

/-- `role` of a `Message` (string-valued in the source, a closed set). -/
inductive Role where
  | system
  | user
  | assistant
  | tool
deriving DecidableEq

/-- One element of an array-valued `content` (multimodal part): a text
part (`"text" in part`) or an image reference (`"image_url" in part`).
The spec data model admits exactly these two part kinds. -/
inductive ContentPart where
  | text (s : List Char)
  | image
deriving DecidableEq

/-- `content` of a `Message`: either a plain string or an array of parts. -/
inductive Content where
  | str (s : List Char)
  | parts (l : List ContentPart)
deriving DecidableEq

/-- One entry of an assistant message's `tool_calls`: `{id, function: {name, arguments}}`.
A missing `function.name` / `arguments` is modelled as `[]` (the source
reads them as `tc.function?.name || ""`). -/
structure ToolCall where
  id : List Char
  name : List Char
  arguments : List Char
deriving DecidableEq

/-- One conversation turn (the `Message` type of
services/copilot/create-chat-completions, as used by the handler). -/
structure Message where
  role : Role
  content : Content
  tool_calls : Option (List ToolCall)
  tool_call_id : Option (List Char)
deriving DecidableEq

/-- The assistant message's call list, `[]` when the field is absent. -/
def callsOf (m : Message) : List ToolCall :=
  match m.tool_calls with
  | some l => l
  | none => []

/-- JS truthiness of `msg.tool_calls && msg.tool_calls.length > 0`. -/
def hasToolCalls (m : Message) : Prop :=
  m.role = Role.assistant ∧ callsOf m ≠ []

instance (m : Message) : Decidable (hasToolCalls m) := by
  unfold hasToolCalls; infer_instance

/-- JS truthiness of `msg.tool_call_id` (absent and `""` are falsy). -/
def truthyId (m : Message) : Prop :=
  match m.tool_call_id with
  | some s => s ≠ []
  | none => False

instance (m : Message) : Decidable (truthyId m) := by
  unfold truthyId
  match m.tool_call_id with
  | some s => simp only []; infer_instance
  | none => exact isFalse (fun h => h)

/-- JS `s.slice(-n)` for a nonnegative `n`: the last `n` characters,
except that `slice(-0)` is `slice(0)`, i.e. the whole string. -/
def jsSliceNeg (s : List Char) (n : Nat) : List Char :=
  if n = 0 then s else s.drop (s.length - n)

/-- The last `n` characters of `s` (what the spec means by a tail
fragment of `n` characters). -/
def lastChars (s : List Char) (n : Nat) : List Char :=
  s.drop (s.length - n)

/-! ## Token estimator (`estimateMessageTokens`) -/

/-- Characters contributed by one content part: a text part contributes
its text, an image reference contributes `" ".repeat(128 * 4)`. -/
def partChars : ContentPart → List Char
  | ContentPart.text s => s
  | ContentPart.image => List.replicate (128 * 4) ' '

/-- Characters accumulated from `message.content`. -/
def contentChars : Content → List Char
  | Content.str s => s
  | Content.parts l => (l.map partChars).flatten

/-- Characters accumulated from an assistant message's tool calls:
`toolCall.function?.name || ""` then `toolCall.function?.arguments || ""`. -/
def toolCallsChars (m : Message) : List Char :=
  match m.tool_calls with
  | some l => (l.map (fun tc => tc.name ++ tc.arguments)).flatten
  | none => []

/-- The `text` string accumulated by `estimateMessageTokens` before the
final division. -/
def messageText (m : Message) : List Char :=
  contentChars m.content
    ++ (if m.role = Role.assistant then toolCallsChars m else [])
    ++ (if m.role = Role.tool ∧ truthyId m then
          (match m.tool_call_id with
           | some t => t
           | none => [])
        else [])

/-- `estimateMessageTokens`: `Math.ceil(text.length / 4) + 4`. -/
def estimateMessageTokens (m : Message) : Nat :=
  ((messageText m).length + 3) / 4 + 4

/-! ## Model capability table and context-limit resolution -/

/-- `MODEL_CONTEXT_LIMITS`, as an association list in source (insertion)
order; `Object.entries` iterates it in exactly this order. -/
def MODEL_CONTEXT_LIMITS : List (String × Nat) :=
  [ ("gpt-4", 8192)
  , ("gpt-4-32k", 32768)
  , ("gpt-4-turbo", 128000)
  , ("gpt-4-turbo-preview", 128000)
  , ("gpt-4o", 128000)
  , ("gpt-4o-mini", 128000)
  , ("gpt-4.1", 1000000)
  , ("gpt-4.1-mini", 1000000)
  , ("gpt-4.5-preview", 128000)
  , ("gpt-5", 128000)
  , ("gpt-5.2", 128000)
  , ("gpt-5.2-codex", 128000)
  , ("o1", 200000)
  , ("o1-mini", 128000)
  , ("o1-preview", 128000)
  , ("o1-pro", 200000)
  , ("o3", 200000)
  , ("o3-mini", 128000)
  , ("o3-pro", 200000)
  , ("o4-mini", 200000)
  , ("claude-3-opus", 200000)
  , ("claude-3-sonnet", 200000)
  , ("claude-3-haiku", 200000)
  , ("claude-3.5-sonnet", 200000)
  , ("claude-3.5-haiku", 200000)
  , ("claude-sonnet-4", 200000)
  , ("claude-opus-4", 200000)
  , ("claude-haiku-4", 200000)
  , ("gemini-2.0-flash", 1000000)
  , ("gemini-2.5-pro", 1000000)
  , ("default", 128000)
  ]

/-- JS `model.startsWith(p)`. -/
def startsWithJS (m p : String) : Bool :=
  p.data.isPrefixOf m.data

/-- JS `model.includes(sub)`. -/
def listContainsSub (sub : List Char) : List Char → Bool
  | [] => sub.isEmpty
  | c :: t => sub.isPrefixOf (c :: t) || listContainsSub sub t

/-- JS `model.includes(sub)` on strings. -/
def includesJS (m sub : String) : Bool :=
  listContainsSub sub.data m.data

/-- `model in MODEL_CONTEXT_LIMITS` followed by the property read
(object keys are unique, so first match is the match). -/
def tableLookup (m : String) : Option Nat :=
  (MODEL_CONTEXT_LIMITS.find? (fun e => e.1 = m)).map (fun e => e.2)

/-- The `for (const [prefix, limit] of Object.entries(MODEL_CONTEXT_LIMITS))`
loop: return the FIRST entry, in table order, whose non-`"default"` key
is a prefix of the model name. -/
def prefixMatchLoop (m : String) : List (String × Nat) → Option Nat
  | [] => none
  | e :: rest =>
      if e.1 ≠ "default" ∧ startsWithJS m e.1 then some e.2
      else prefixMatchLoop m rest

/-- The trailing pattern-match chain of `getModelContextLimit`
(`includes`/`startsWith` family heuristics, then the `default` entry). -/
def familyHeuristic (m : String) : Nat :=
  if includesJS m "claude" then 200000
  else if includesJS m "gemini" then 1000000
  else if includesJS m "gpt-4" then 128000
  else if includesJS m "gpt-5" then 128000
  else if startsWithJS m "o1" || startsWithJS m "o3" || startsWithJS m "o4" then 200000
  else 128000

/-- `getModelContextLimit`: exact table match, then the first-match
prefix loop, then the family heuristics. -/
def getModelContextLimit (m : String) : Nat :=
  match tableLookup m with
  | some v => v
  | none =>
      match prefixMatchLoop m MODEL_CONTEXT_LIMITS with
      | some v => v
      | none => familyHeuristic m

/-- `getDynamicTargetLimit` (with the default `reserveRatio = 0.15`):
`contextLimit - max(floor(contextLimit * 0.15), 4096)`.  For every
context limit produced by `getModelContextLimit` (8192, 32768, 128000,
200000, 1000000) the JS double computation `limit * 0.15` rounds to the
exact product, so exact arithmetic is faithful here. -/
def getDynamicTargetLimit (m : String) : Nat :=
  let contextLimit := getModelContextLimit m
  contextLimit - max (contextLimit * 15 / 100) 4096

/-! ## Tool identifier sanitizer (`sanitizeToolId`) -/

/-- Membership in the character class `[A-Za-z0-9_-]` (JS `\w` plus `-`;
`/[^\w-]/g` removes exactly the complement). -/
def isWordChar (c : Char) : Bool :=
  (('a' ≤ c ∧ c ≤ 'z') ∨ ('A' ≤ c ∧ c ≤ 'Z') ∨ ('0' ≤ c ∧ c ≤ '9')
    ∨ c = '_' ∨ c = '-' : Prop)

/-- `sanitizeToolId`.  The source synthesizes
`tool_<Date.now()>_<random>` when the input is empty or strips to
empty; the synthesized value is passed here explicitly as `fallback`
(distinct invocations may receive distinct fallbacks). -/
def sanitizeToolId (fallback : List Char) (id : List Char) : List Char :=
  if id = [] then fallback
  else
    let sanitized := id.filter isWordChar
    if sanitized = [] then fallback else sanitized

/-! ## Tool-call sequence repairer (`fixToolCallsMessages`) -/

/-- The `toolResponseMap` of `fixToolCallsMessages`: a map from
`tool_call_id` to the tool-response message, built by a forward pass in
which a later entry overwrites an earlier one ("last write wins").
`lookupToolResponse msgs t` is the final `toolResponseMap.get(t)`. -/
def lookupToolResponse : List Message → List Char → Option Message
  | [], _ => none
  | m :: rest, t =>
      match lookupToolResponse rest t with
      | some r => some r
      | none =>
          if m.role = Role.tool ∧ truthyId m ∧ m.tool_call_id = some t then some m
          else none

/-- The JSON body of a synthesized placeholder response
(`JSON.stringify({status, reason, tool_name})`). -/
def placeholderContent (toolName : List Char) : List Char :=
  ("\x7b\"status\":\"skipped\",\"reason\":\"Tool execution was interrupted or skipped\",\"tool_name\":\"").data
    ++ (if toolName = [] then ("unknown").data else toolName)
    ++ ("\"\x7d").data

/-- The placeholder tool-response synthesized for a call with no
matching response. -/
def placeholderFor (tc : ToolCall) : Message :=
  { role := Role.tool
  , content := Content.str (placeholderContent tc.name)
  , tool_calls := none
  , tool_call_id := some tc.id }

/-- What the rebuild loop of `fixToolCallsMessages` appends for one call
of an assistant message: the mapped response if present, else a
placeholder. -/
def responseForCall (lookup : List Char → Option Message) (tc : ToolCall) : Message :=
  match lookup tc.id with
  | some r => r
  | none => placeholderFor tc

/-- One iteration of the rebuild loop: tool messages are skipped; other
messages are appended; an assistant message with tool calls is followed
immediately by the response for each call, in listed order. -/
def expandMessage (lookup : List Char → Option Message) (m : Message) : List Message :=
  if m.role = Role.tool then []
  else
    m :: (if hasToolCalls m then (callsOf m).map (responseForCall lookup) else [])

/-- `fixToolCallsMessages`.  The counters and `usedToolResponseIds` of
the source only feed log lines; the returned list is exactly the
rebuild. -/
def fixToolCallsMessages (messages : List Message) : List Message :=
  messages.flatMap (expandMessage (lookupToolResponse messages))

/-! ## Context truncation module -/

/-- `MessageCategory`. -/
inductive MessageCategory where
  | system
  | tool_context
  | regular
deriving DecidableEq

/-- `categorizeMessage`. -/
def categorizeMessage (m : Message) : MessageCategory :=
  if m.role = Role.system then MessageCategory.system
  else if m.role = Role.tool then MessageCategory.tool_context
  else if m.role = Role.assistant ∧ callsOf m ≠ [] then MessageCategory.tool_context
  else MessageCategory.regular

/-- The elision marker inserted by `compressToolResult`, naming the
count of elided characters. -/
def elisionMarker (elided : Nat) : List Char :=
  ("\n\n... [内容已截断，中间省略 ").data ++ (Nat.repr elided).data ++ (" 字符] ...\n\n").data

/-- `compressToolResult`.  `content` is read as a string (`""` when it
is not one); when the estimated cost exceeds `maxTokens` the content is
replaced by
`content.slice(0, headLength) + marker + content.slice(-tailLength)`
with `targetLength = floor(content.length * (maxTokens / currentTokens) * 0.9)`,
`headLength = floor(targetLength * 0.6)`, `tailLength = floor(targetLength * 0.3)`. -/
def compressToolResult (message : Message) (maxTokens : Nat) : Message :=
  let content := match message.content with
    | Content.str s => s
    | Content.parts _ => []
  let currentTokens := estimateMessageTokens message
  if currentTokens ≤ maxTokens then message
  else
    let targetLength := content.length * maxTokens * 9 / (currentTokens * 10)
    let headLength := targetLength * 6 / 10
    let tailLength := targetLength * 3 / 10
    let truncatedContent :=
      content.take headLength
        ++ elisionMarker (content.length - headLength - tailLength)
        ++ jsSliceNeg content tailLength
    { role := message.role
    , content := Content.str truncatedContent
    , tool_calls := message.tool_calls
    , tool_call_id := message.tool_call_id }

/-- One entry of the `categorized` array of `truncateMessagesSmart`. -/
structure TruncItem where
  msg : Message
  category : MessageCategory
  tokens : Nat
  index : Nat
deriving DecidableEq

/-- Pairs each list element with its position, starting at `n`
(the `for (let i = 0; ...)` indexing of the source). -/
def idxZip (n : Nat) : List Message → List (Nat × Message)
  | [] => []
  | m :: rest => (n, m) :: idxZip (n + 1) rest

/-- The `categorized` array: message, category, estimated tokens and
original index, in original order. -/
def categorizeAll (msgs : List Message) : List TruncItem :=
  (idxZip 0 msgs).map (fun p =>
    { msg := p.2
    , category := categorizeMessage p.2
    , tokens := estimateMessageTokens p.2
    , index := p.1 })

/-- Step 1 of `truncateMessagesSmart` applied to one item: a tool
message over 8000 tokens is compressed, and replaces the original only
when compression actually lowered the estimate. -/
def compressItem (it : TruncItem) : TruncItem :=
  if it.msg.role = Role.tool ∧ 8000 < it.tokens then
    let compressedMsg := compressToolResult it.msg 8000
    let newTokens := estimateMessageTokens compressedMsg
    if newTokens < it.tokens then
      { msg := compressedMsg
      , category := it.category
      , tokens := newTokens
      , index := it.index }
    else it
  else it

/-- The `compressed` array of step 1. -/
def compressItems (items : List TruncItem) : List TruncItem :=
  items.map compressItem

/-- `compressedCount`: how many items step 1 actually replaced. -/
def compressedCountOf (items : List TruncItem) : Nat :=
  items.countP (fun it =>
    decide (it.msg.role = Role.tool ∧ 8000 < it.tokens
      ∧ estimateMessageTokens (compressToolResult it.msg 8000) < it.tokens))

/-- The backward search for `lastToolIndex` (the source records the
array position of the hit; `pos` tracks the position of the list head). -/
def lastToolIdxFrom (pos : Nat) : List TruncItem → Option Nat
  | [] => none
  | it :: rest =>
      match lastToolIdxFrom (pos + 1) rest with
      | some k => some k
      | none =>
          if it.category = MessageCategory.tool_context then some pos else none

/-- Position of the last tool-context item, `none` when there is none
(the source's `-1`). -/
def lastToolIdx (items : List TruncItem) : Option Nat :=
  lastToolIdxFrom 0 items

/-- The walk from `lastToolIndex` back to the front: collect the
`index` of each tool-context item, stop at the first regular item
strictly before `lastToolIndex`, pass over anything else (system
items neither stop the walk nor join the chain here).  The argument
list is the prefix up to `lastToolIndex`, position-tagged, reversed. -/
def chainCollect (k : Nat) : List (Nat × TruncItem) → List Nat
  | [] => []
  | (i, it) :: rest =>
      if it.category = MessageCategory.tool_context then it.index :: chainCollect k rest
      else if it.category = MessageCategory.regular ∧ i < k then []
      else chainCollect k rest

/-- Pairs each item with its position (same shape as `idxZip`). -/
def idxZipItems (n : Nat) : List TruncItem → List (Nat × TruncItem)
  | [] => []
  | it :: rest => (n, it) :: idxZipItems (n + 1) rest

/-- The indices added to `mustKeep` by the tool-chain rule. -/
def chainIndices (items : List TruncItem) : List Nat :=
  match lastToolIdx items with
  | none => []
  | some k => chainCollect k (((idxZipItems 0 items).take (k + 1)).reverse)

/-- Indices of system items (always kept). -/
def systemIndices (items : List TruncItem) : List Nat :=
  (items.filter (fun it => decide (it.category = MessageCategory.system))).map
    (fun it => it.index)

/-- The backward search adding the most recent user message's index. -/
def lastUserIdx : List TruncItem → Option Nat
  | [] => none
  | it :: rest =>
      match lastUserIdx rest with
      | some k => some k
      | none => if it.msg.role = Role.user then some it.index else none

/-- The `mustKeep` set of step 2 (as a list of indices: system messages,
the most recent tool chain, the most recent user message). -/
def mustKeepList (items : List TruncItem) : List Nat :=
  systemIndices items ++ chainIndices items
    ++ (match lastUserIdx items with
        | some k => [k]
        | none => [])

/-- The greedy pass of step 3: walk the non-must-keep regular items from
most recent to oldest, keeping each whose cost still fits. -/
def greedyKeep (availableTokens : Nat) (regs : List TruncItem) : List Nat :=
  (regs.reverse.foldl
    (fun st it =>
      if st.1 + it.tokens ≤ availableTokens then (st.1 + it.tokens, it.index :: st.2)
      else st)
    ((0, []) : Nat × List Nat)).2

/-- Insertion into a list sorted by ascending `index` (model of the
source's `result.sort((a, b) => a.index - b.index)`; on the pairwise
distinct indices produced here the sorted order is unique, so any
comparison sort agrees with insertion sort). -/
def insertByIdx (it : TruncItem) : List TruncItem → List TruncItem
  | [] => [it]
  | b :: l => if it.index ≤ b.index then it :: b :: l else b :: insertByIdx it l

/-- Sort by ascending `index`. -/
def sortByIdx : List TruncItem → List TruncItem
  | [] => []
  | a :: l => insertByIdx a (sortByIdx l)

/-- `TruncationResult`. -/
structure TruncationResult where
  messages : List Message
  originalTokens : Nat
  truncatedTokens : Nat
  removedCount : Nat
  compressedCount : Nat
deriving DecidableEq

/-- `truncateMessagesSmart`.  `targetTokens` is the optional third
parameter (`targetTokens ?? getDynamicTargetLimit(model)`). -/
def truncateMessagesSmart (messages : List Message) (model : String)
    (targetTokens : Option Nat) : TruncationResult :=
  let target := targetTokens.getD (getDynamicTargetLimit model)
  let originalTokens := (messages.map estimateMessageTokens).sum
  if originalTokens ≤ target then
    { messages := messages
    , originalTokens := originalTokens
    , truncatedTokens := originalTokens
    , removedCount := 0
    , compressedCount := 0 }
  else
    let categorized := categorizeAll messages
    let compressed := compressItems categorized
    let compressedCount := compressedCountOf categorized
    let currentTokens := (compressed.map (fun it => it.tokens)).sum
    if currentTokens ≤ target then
      { messages := compressed.map (fun it => it.msg)
      , originalTokens := originalTokens
      , truncatedTokens := currentTokens
      , removedCount := 0
      , compressedCount := compressedCount }
    else
      let mustKeep := mustKeepList compressed
      let mustKeepTokens :=
        ((compressed.filter (fun it => decide (it.index ∈ mustKeep))).map
          (fun it => it.tokens)).sum
      let availableTokens := target - mustKeepTokens
      let regularMessages := compressed.filter (fun it =>
        decide (¬ it.index ∈ mustKeep ∧ it.category = MessageCategory.regular))
      let keepRegular := greedyKeep availableTokens regularMessages
      let result := sortByIdx (compressed.filter (fun it =>
        decide (it.index ∈ mustKeep ∨ it.index ∈ keepRegular)))
      { messages := result.map (fun it => it.msg)
      , originalTokens := originalTokens
      , truncatedTokens := (result.map (fun it => it.tokens)).sum
      , removedCount := compressed.length - result.length
      , compressedCount := compressedCount }

/-- `needsTruncation`'s accumulating loop with early exit. -/
def needsTruncationLoop (target : Nat) (totalTokens : Nat) : List Message → Bool
  | [] => false
  | m :: rest =>
      let totalTokens := totalTokens + estimateMessageTokens m
      if target < totalTokens then true
      else needsTruncationLoop target totalTokens rest

/-- `needsTruncation`. -/
def needsTruncation (messages : List Message) (model : String) : Bool :=
  needsTruncationLoop (getDynamicTargetLimit model) 0 messages

/-- `getTotalTokens`: `messages.reduce((sum, msg) => sum + estimateMessageTokens(msg), 0)`. -/
def getTotalTokens (messages : List Message) : Nat :=
  messages.foldl (fun sum msg => sum + estimateMessageTokens msg) 0

/-! ## Shared helper lemmas -/

theorem foldl_add_estimate (msgs : List Message) (n : Nat) :
    msgs.foldl (fun sum msg => sum + estimateMessageTokens msg) n
      = n + (msgs.map estimateMessageTokens).sum := by
  induction msgs generalizing n with
  | nil => simp [List.foldl]
  | cons m rest ih => simp [List.foldl, ih, List.sum_cons]; ring

theorem getTotalTokens_eq_sum (msgs : List Message) :
    getTotalTokens msgs = (msgs.map estimateMessageTokens).sum := by
  simpa [getTotalTokens] using foldl_add_estimate msgs 0

/-! ## Claim C9: the token estimator formula -/

/-- Character contribution of a text part (0 for an image part). -/
def partTextLen : ContentPart → Nat
  | ContentPart.text s => s.length
  | ContentPart.image => 0

/-- Indicator of an image part. -/
def partIsImage : ContentPart → Nat
  | ContentPart.text _ => 0
  | ContentPart.image => 1

/-- Character count of the counted text per the spec: text parts by
character count, plus tool-call function names and serialized arguments,
plus the referenced `tool_call_id`; image parts are NOT counted here
(they enter as a fixed 128-token term). -/
def countedTextChars (m : Message) : Nat :=
  (match m.content with
   | Content.str s => s.length
   | Content.parts l => (l.map partTextLen).sum)
  + (if m.role = Role.assistant then
       (match m.tool_calls with
        | some l => (l.map (fun tc => tc.name.length + tc.arguments.length)).sum
        | none => 0)
     else 0)
  + (if m.role = Role.tool ∧ truthyId m then
       (match m.tool_call_id with
        | some t => t.length
        | none => 0)
     else 0)

/-- Number of non-text (image-reference) parts of the message content. -/
def imageCount (m : Message) : Nat :=
  match m.content with
  | Content.str _ => 0
  | Content.parts l => (l.map partIsImage).sum

theorem partChars_length (p : ContentPart) :
    (partChars p).length = partTextLen p + 512 * partIsImage p := by
  cases p with
  | text s => simp [partChars, partTextLen, partIsImage]
  | image =>
      simp only [partChars, partTextLen, partIsImage, List.length_replicate]

theorem contentChars_length (c : Content) :
    (contentChars c).length
      = (match c with
         | Content.str s => s.length
         | Content.parts l => (l.map partTextLen).sum)
        + 512 * (match c with
         | Content.str _ => 0
         | Content.parts l => (l.map partIsImage).sum) := by
  cases c with
  | str s => simp [contentChars]
  | parts l =>
      simp only [contentChars, List.length_flatten, List.map_map]
      induction l with
      | nil => simp
      | cons p rest ih =>
          simp only [List.map_cons, List.sum_cons, Function.comp, ih, partChars_length]
          ring

theorem messageText_length (m : Message) :
    (messageText m).length = countedTextChars m + 512 * imageCount m := by
  unfold messageText countedTextChars imageCount
  simp only [List.length_append, contentChars_length m.content]
  have htc : (if m.role = Role.assistant then toolCallsChars m else []).length
      = (if m.role = Role.assistant then
           (match m.tool_calls with
            | some l => (l.map (fun tc => tc.name.length + tc.arguments.length)).sum
            | none => 0)
         else 0) := by
    by_cases h : m.role = Role.assistant
    · simp only [h, if_pos]
      unfold toolCallsChars
      match m.tool_calls with
      | none => simp
      | some l =>
          simp only [List.length_flatten, List.map_map]
          induction l with
          | nil => simp
          | cons tc rest ih =>
              simp only [List.map_cons, List.sum_cons, Function.comp, ih,
                List.length_append]
    · simp [h]
  have hid : (if m.role = Role.tool ∧ truthyId m then
        (match m.tool_call_id with
         | some t => t
         | none => []) else []).length
      = (if m.role = Role.tool ∧ truthyId m then
        (match m.tool_call_id with
         | some t => t.length
         | none => 0) else 0) := by
    by_cases h : m.role = Role.tool ∧ truthyId m
    · simp only [h, if_pos]
      match m.tool_call_id with
      | some t => rfl
      | none => rfl
    · simp [h]
  rw [htc, hid]
  cases m.content <;> ring

/-- C9: for every message, the token estimator returns
`ceil(counted_characters / 4) + 128 per image part + 4`: text parts
contribute their character count, each non-text (image-reference) part
contributes a fixed 128 tokens, tool-call function names, serialized
arguments and the referenced `tool_call_id` are counted, and every
message adds a fixed overhead of 4.  (The value is a `Nat`, hence
non-negative.) -/
theorem estimator_formula (m : Message) :
    estimateMessageTokens m
      = (countedTextChars m + 3) / 4 + 128 * imageCount m + 4 := by
  unfold estimateMessageTokens
  rw [messageText_length]
  have h4 : countedTextChars m + 512 * imageCount m + 3
      = countedTextChars m + 3 + 4 * (128 * imageCount m) := by ring
  rw [h4, Nat.add_mul_div_left _ _ (by norm_num : (0:Nat) < 4)]

/-! ## Claim C10: `needsTruncation` early exit is equivalent to the full total -/

theorem needsTruncationLoop_spec (target : Nat) :
    ∀ (msgs : List Message) (acc : Nat), acc ≤ target →
      (needsTruncationLoop target acc msgs = true
        ↔ target < acc + (msgs.map estimateMessageTokens).sum) := by
  intro msgs
  induction msgs with
  | nil => intro acc hacc; simp [needsTruncationLoop]; omega
  | cons m rest ih =>
      intro acc hacc
      simp only [needsTruncationLoop, List.map_cons, List.sum_cons]
      by_cases h : target < acc + estimateMessageTokens m
      · simp only [if_pos h, true_iff]
        omega
      · simp only [if_neg h]
        have hacc' : acc + estimateMessageTokens m ≤ target := by omega
        rw [ih _ hacc']
        omega

/-- C10: `needsTruncation messages model` holds exactly when the full
total `getTotalTokens messages` exceeds `getDynamicTargetLimit model`;
the early-exit prefix-sum check loses nothing because every per-message
estimate is non-negative. -/
theorem needsTruncation_iff_total (messages : List Message) (model : String) :
    needsTruncation messages model
      = decide (getDynamicTargetLimit model < getTotalTokens messages) := by
  have h := needsTruncationLoop_spec (getDynamicTargetLimit model) messages 0 (Nat.zero_le _)
  rw [getTotalTokens_eq_sum]
  by_cases hlt : getDynamicTargetLimit model < (messages.map estimateMessageTokens).sum
  · have htrue : needsTruncationLoop (getDynamicTargetLimit model) 0 messages = true := by
      rw [h]; simpa using hlt
    simp [needsTruncation, htrue, hlt]
  · have hfalse : needsTruncationLoop (getDynamicTargetLimit model) 0 messages = false := by
      cases hb : needsTruncationLoop (getDynamicTargetLimit model) 0 messages
      · rfl
      · exact absurd (by simpa using h.mp hb) hlt
    simp [needsTruncation, hfalse, hlt]

/-! ## Claim C4: sanitizer determinism -/

/-- C4 counterexample: `"!!!"` is a non-empty id, yet its sanitization
depends on the synthesized fallback (time- and randomness-derived in
the source), so two invocations within one request need not agree. -/
theorem sanitizeToolId_nonempty_not_deterministic :
    ("!!!").data ≠ ([] : List Char)
      ∧ sanitizeToolId ("tool_1_aaaaaaa").data ("!!!").data
          ≠ sanitizeToolId ("tool_2_bbbbbbb").data ("!!!").data := by
  constructor
  · decide
  · decide

/-- C4 amended: for every id with at least one character in
`[A-Za-z0-9_-]` (equivalently, whose stripped form is non-empty), the
sanitizer is a pure function of the id — any two invocations agree, both
returning the stripped string. -/
theorem sanitizeToolId_deterministic (id f₁ f₂ : List Char)
    (h : id.filter isWordChar ≠ []) :
    sanitizeToolId f₁ id = sanitizeToolId f₂ id
      ∧ sanitizeToolId f₁ id = id.filter isWordChar := by
  have hne : id ≠ [] := by
    intro he
    exact h (by simp [he])
  unfold sanitizeToolId
  simp only [if_neg hne, if_neg h, and_self]

theorem sanitizeToolId_deterministic_witness :
    (("x!1").data.filter isWordChar ≠ []
        ∧ sanitizeToolId ("tool_1_aaaaaaa").data ("x!1").data
            = sanitizeToolId ("tool_2_bbbbbbb").data ("x!1").data)
      ∧ sanitizeToolId ("tool_1_aaaaaaa").data ("x!1").data
          = ("x1").data := by
  have h : ("x!1").data.filter isWordChar ≠ [] := by decide
  have := sanitizeToolId_deterministic ("x!1").data
    ("tool_1_aaaaaaa").data ("tool_2_bbbbbbb").data h
  exact ⟨⟨h, this.1⟩, this.2.trans (by decide)⟩

/-! ## Claim C7: the fitter is the identity when the cost fits the budget -/

/-- C7: whenever the total estimated cost is at most the resolved target
budget, `truncateMessagesSmart` returns the input messages unchanged,
with `removedCount = 0`, `compressedCount = 0`, and equal original and
final token estimates. -/
theorem truncate_noop_of_under_budget (messages : List Message) (model : String)
    (targetTokens : Option Nat)
    (h : getTotalTokens messages ≤ targetTokens.getD (getDynamicTargetLimit model)) :
    truncateMessagesSmart messages model targetTokens
      = { messages := messages
        , originalTokens := getTotalTokens messages
        , truncatedTokens := getTotalTokens messages
        , removedCount := 0
        , compressedCount := 0 } := by
  rw [getTotalTokens_eq_sum] at h ⊢
  unfold truncateMessagesSmart
  simp only [if_pos h]

theorem truncate_noop_witness :
    (getTotalTokens
        [{ role := Role.user, content := Content.str ("hello").data
         , tool_calls := none, tool_call_id := none }]
      ≤ (some 10000).getD (getDynamicTargetLimit "gpt-4"))
    ∧ truncateMessagesSmart
        [{ role := Role.user, content := Content.str ("hello").data
         , tool_calls := none, tool_call_id := none }] "gpt-4" (some 10000)
      = { messages :=
            [{ role := Role.user, content := Content.str ("hello").data
             , tool_calls := none, tool_call_id := none }]
        , originalTokens := 6
        , truncatedTokens := 6
        , removedCount := 0
        , compressedCount := 0 } := by
  have h : getTotalTokens
      [{ role := Role.user, content := Content.str ("hello").data
       , tool_calls := none, tool_call_id := none }]
      ≤ (some 10000).getD (getDynamicTargetLimit "gpt-4") := by decide
  refine ⟨h, ?_⟩
  rw [truncate_noop_of_under_budget _ _ _ h]
  decide

/-! ## Claim C2: context-limit resolution order -/

/-- Resolution written the declarative way: the first entry in table
order whose non-`"default"` key is a prefix of the model name. -/
def firstPrefixEntry (m : String) : Option Nat :=
  (MODEL_CONTEXT_LIMITS.find? (fun e => decide (e.1 ≠ "default") && startsWithJS m e.1)).map
    (fun e => e.2)

/-- What the claim says the second stage is: among the non-`"default"`
table keys that are prefixes of the model name, the value of a LONGEST
one. -/
def longestPrefixEntry (m : String) : Option Nat :=
  ((MODEL_CONTEXT_LIMITS.filter (fun e => decide (e.1 ≠ "default") && startsWithJS m e.1)).foldl
    (fun best e =>
      match best with
      | none => some e
      | some b => if b.1.length < e.1.length then some e else some b)
    none).map (fun e => e.2)

theorem prefixMatchLoop_eq_find (m : String) (l : List (String × Nat)) :
    prefixMatchLoop m l
      = (l.find? (fun e => decide (e.1 ≠ "default") && startsWithJS m e.1)).map
          (fun e => e.2) := by
  induction l with
  | nil => rfl
  | cons e rest ih =>
      by_cases h : e.1 ≠ "default" ∧ startsWithJS m e.1
      · simp [prefixMatchLoop, List.find?_cons, h.1, h.2]
      · rw [Decidable.not_and_iff_or_not] at h
        rcases h with h | h
        · simp only [ne_eq, Decidable.not_not] at h
          simp [prefixMatchLoop, List.find?_cons, h, ih]
        · simp only [Bool.not_eq_true] at h
          simp [prefixMatchLoop, List.find?_cons, h, ih]

/-- C2 counterexample: for the model name `"gpt-4-32k-0613"` there is no
exact table match, the longest matching table prefix is `"gpt-4-32k"`
with value 32768, yet the resolver returns 8192 (the value of
`"gpt-4"`, the FIRST matching prefix in table order) — so resolution is
not longest-prefix. -/
theorem contextLimit_not_longest_prefix :
    tableLookup "gpt-4-32k-0613" = none
      ∧ longestPrefixEntry "gpt-4-32k-0613" = some 32768
      ∧ getModelContextLimit "gpt-4-32k-0613" = 8192 := by
  refine ⟨by decide, by decide, by decide⟩

/-- C2 amended: the context-window size is resolved by exact match
first, then by the FIRST matching non-`"default"` prefix in table
(insertion) order — not the longest — then by the family heuristics
(claude / gemini / gpt-4 / gpt-5 / o-series), and otherwise defaults to
128000 (`familyHeuristic` ends in the table's `default` value 128000). -/
theorem contextLimit_resolution_order (m : String) :
    getModelContextLimit m
      = (tableLookup m).getD ((firstPrefixEntry m).getD (familyHeuristic m)) := by
  unfold getModelContextLimit firstPrefixEntry
  rw [prefixMatchLoop_eq_find]
  cases tableLookup m with
  | some v => rfl
  | none =>
      cases (MODEL_CONTEXT_LIMITS.find?
          (fun e => decide (e.1 ≠ "default") && startsWithJS m e.1)) with
      | some e => rfl
      | none => rfl

/-! ## Claims C1 and C6: the sequence repairer's invariant -/

/-- `rs` is exactly the response block for the call list `cs`: same
length, each response a tool message referencing the corresponding call
id, in listed order. -/
def respondsToB : List ToolCall → List Message → Bool
  | [], [] => true
  | tc :: cs, r :: rs =>
      if r.role = Role.tool ∧ r.tool_call_id = some tc.id then respondsToB cs rs
      else false
  | _, _ => false

/-- The repairer's output-shape invariant, stated structurally: the list
is a concatenation of blocks, each either a single non-tool message
without tool calls, or an assistant message carrying tool calls followed
immediately by exactly its response block.  Tool messages occur only
inside response blocks. -/
inductive Repaired : List Message → Prop where
  | nil : Repaired []
  | plain {m : Message} {l : List Message} :
      m.role ≠ Role.tool → ¬ hasToolCalls m → Repaired l → Repaired (m :: l)
  | block {m : Message} {rs l : List Message} :
      hasToolCalls m → respondsToB (callsOf m) rs = true → Repaired l →
      Repaired (m :: (rs ++ l))

theorem respondsToB_length : ∀ (cs : List ToolCall) (rs : List Message),
    respondsToB cs rs = true → rs.length = cs.length := by
  intro cs
  induction cs with
  | nil =>
      intro rs h
      cases rs with
      | nil => rfl
      | cons r rs => simp [respondsToB] at h
  | cons tc cs ih =>
      intro rs h
      cases rs with
      | nil => simp [respondsToB] at h
      | cons r rs =>
          simp only [respondsToB] at h
          by_cases hc : r.role = Role.tool ∧ r.tool_call_id = some tc.id
          · rw [if_pos hc] at h
            simp [ih rs h]
          · rw [if_neg hc] at h
            exact absurd h (by simp)

theorem respondsToB_get : ∀ (cs : List ToolCall) (rs : List Message),
    respondsToB cs rs = true → ∀ (j : Nat) (c : ToolCall), cs[j]? = some c →
      ∃ r, rs[j]? = some r ∧ r.role = Role.tool ∧ r.tool_call_id = some c.id := by
  intro cs
  induction cs with
  | nil => intro rs h j c hc; simp at hc
  | cons tc cs ih =>
      intro rs h j c hc
      cases rs with
      | nil => simp [respondsToB] at h
      | cons r rs =>
          simp only [respondsToB] at h
          by_cases hcnd : r.role = Role.tool ∧ r.tool_call_id = some tc.id
          · rw [if_pos hcnd] at h
            cases j with
            | zero =>
                simp only [List.getElem?_cons_zero, Option.some.injEq] at hc
                exact ⟨r, by simp, hcnd.1, hc ▸ hcnd.2⟩
            | succ j =>
                simp only [List.getElem?_cons_succ] at hc ⊢
                exact ih rs h j c hc
          · rw [if_neg hcnd] at h
            exact absurd h (by simp)

theorem respondsToB_tool : ∀ (cs : List ToolCall) (rs : List Message),
    respondsToB cs rs = true → ∀ r ∈ rs, r.role = Role.tool := by
  intro cs
  induction cs with
  | nil =>
      intro rs h r hr
      cases rs with
      | nil => simp at hr
      | cons x xs => simp [respondsToB] at h
  | cons tc cs ih =>
      intro rs h r hr
      cases rs with
      | nil => simp at hr
      | cons x xs =>
          simp only [respondsToB] at h
          by_cases hcnd : x.role = Role.tool ∧ x.tool_call_id = some tc.id
          · rw [if_pos hcnd] at h
            rcases List.mem_cons.mp hr with rfl | hr
            · exact hcnd.1
            · exact ih xs h r hr
          · rw [if_neg hcnd] at h
            exact absurd h (by simp)

/-- Heads of repaired lists are never tool messages. -/
theorem Repaired.head_not_tool {l : List Message} (h : Repaired l) :
    ∀ m, l[0]? = some m → m.role ≠ Role.tool := by
  cases h with
  | nil => intro m hm; simp at hm
  | plain hrole hcalls hl =>
      intro m hm
      simp only [List.getElem?_cons_zero, Option.some.injEq] at hm
      exact hm ▸ hrole
  | block hcalls hresp hl =>
      intro m hm
      simp only [List.getElem?_cons_zero, Option.some.injEq] at hm
      have h1 := hcalls.1
      rw [hm] at h1
      simp [h1]

theorem Repaired.block_responses {l : List Message} (h : Repaired l) :
    ∀ (i : Nat) (m : Message), l[i]? = some m → m.role = Role.assistant →
      ∀ (j : Nat) (c : ToolCall), (callsOf m)[j]? = some c →
        ∃ r, l[i + 1 + j]? = some r ∧ r.role = Role.tool
            ∧ r.tool_call_id = some c.id := by
  induction h with
  | nil => intro i m hm; simp at hm
  | plain hrole hcalls hrep ih =>
      rename_i m0 l0
      intro i m hm hassist j c hc
      cases i with
      | zero =>
          simp only [List.getElem?_cons_zero, Option.some.injEq] at hm
          subst hm
          exfalso
          apply hcalls
          refine ⟨hassist, ?_⟩
          intro hnil
          rw [hnil] at hc
          simp at hc
      | succ i =>
          simp only [List.getElem?_cons_succ] at hm
          obtain ⟨r, hr, hrole', hid⟩ := ih i m hm hassist j c hc
          refine ⟨r, ?_, hrole', hid⟩
          have h1 : i + 1 + 1 + j = (i + 1 + j) + 1 := by omega
          rw [h1, List.getElem?_cons_succ]
          exact hr
  | block hcalls hresp hrep ih =>
      rename_i m0 rs0 l0
      intro i m hm hassist j c hc
      cases i with
      | zero =>
          simp only [List.getElem?_cons_zero, Option.some.injEq] at hm
          subst hm
          obtain ⟨r, hrj, hrole', hid⟩ := respondsToB_get _ _ hresp j c hc
          have hj : j < rs0.length := (List.getElem?_eq_some_iff.mp hrj).1
          refine ⟨r, ?_, hrole', hid⟩
          have h1 : 0 + 1 + j = j + 1 := by omega
          rw [h1, List.getElem?_cons_succ, List.getElem?_append_left hj]
          exact hrj
      | succ i =>
          simp only [List.getElem?_cons_succ] at hm
          by_cases hi : i < rs0.length
          · rw [List.getElem?_append_left hi] at hm
            have hmem : m ∈ rs0 := by
              obtain ⟨hlt, hg⟩ := List.getElem?_eq_some_iff.mp hm
              exact hg ▸ List.getElem_mem hlt
            have htool := respondsToB_tool _ _ hresp m hmem
            rw [hassist] at htool
            exact absurd htool (by decide)
          · have hge : rs0.length ≤ i := Nat.le_of_not_lt hi
            rw [List.getElem?_append_right hge] at hm
            obtain ⟨r, hr, hrole', hid⟩ := ih (i - rs0.length) m hm hassist j c hc
            refine ⟨r, ?_, hrole', hid⟩
            have h1 : i + 1 + 1 + j = (i + 1 + j) + 1 := by omega
            rw [h1, List.getElem?_cons_succ]
            have h2 : rs0.length ≤ i + 1 + j := by omega
            rw [List.getElem?_append_right h2]
            have h3 : i + 1 + j - rs0.length = i - rs0.length + 1 + j := by omega
            rw [h3]
            exact hr

theorem Repaired.block_end {l : List Message} (h : Repaired l) :
    ∀ (i : Nat) (m : Message), l[i]? = some m → m.role = Role.assistant →
      ∀ m', l[i + 1 + (callsOf m).length]? = some m' → m'.role ≠ Role.tool := by
  induction h with
  | nil => intro i m hm; simp at hm
  | plain hrole hcalls hrep ih =>
      rename_i m0 l0
      intro i m hm hassist m' hm'
      cases i with
      | zero =>
          simp only [List.getElem?_cons_zero, Option.some.injEq] at hm
          subst hm
          have hnil : callsOf m0 = [] := by
            by_contra hne
            exact hcalls ⟨hassist, hne⟩
          rw [hnil] at hm'
          simp only [List.length_nil] at hm'
          have h1 : 0 + 1 + 0 = 0 + 1 := by omega
          rw [h1, List.getElem?_cons_succ] at hm'
          exact hrep.head_not_tool m' hm'
      | succ i =>
          simp only [List.getElem?_cons_succ] at hm
          have h1 : i + 1 + 1 + (callsOf m).length = (i + 1 + (callsOf m).length) + 1 := by
            omega
          rw [h1, List.getElem?_cons_succ] at hm'
          exact ih i m hm hassist m' hm'
  | block hcalls hresp hrep ih =>
      rename_i m0 rs0 l0
      intro i m hm hassist m' hm'
      have hlen : rs0.length = (callsOf m0).length := respondsToB_length _ _ hresp
      cases i with
      | zero =>
          simp only [List.getElem?_cons_zero, Option.some.injEq] at hm
          subst hm
          have h1 : 0 + 1 + (callsOf m0).length = (callsOf m0).length + 1 := by omega
          rw [h1, List.getElem?_cons_succ] at hm'
          rw [List.getElem?_append_right (by omega : rs0.length ≤ (callsOf m0).length)] at hm'
          have h2 : (callsOf m0).length - rs0.length = 0 := by omega
          rw [h2] at hm'
          exact hrep.head_not_tool m' hm'
      | succ i =>
          simp only [List.getElem?_cons_succ] at hm
          by_cases hi : i < rs0.length
          · rw [List.getElem?_append_left hi] at hm
            have hmem : m ∈ rs0 := by
              obtain ⟨hlt, hg⟩ := List.getElem?_eq_some_iff.mp hm
              exact hg ▸ List.getElem_mem hlt
            have htool := respondsToB_tool _ _ hresp m hmem
            rw [hassist] at htool
            exact absurd htool (by decide)
          · have hge : rs0.length ≤ i := Nat.le_of_not_lt hi
            rw [List.getElem?_append_right hge] at hm
            have h1 : i + 1 + 1 + (callsOf m).length
                = (i + 1 + (callsOf m).length) + 1 := by omega
            rw [h1, List.getElem?_cons_succ] at hm'
            rw [List.getElem?_append_right (by omega : rs0.length ≤ i + 1 + (callsOf m).length)] at hm'
            have h2 : i + 1 + (callsOf m).length - rs0.length
                = (i - rs0.length) + 1 + (callsOf m).length := by omega
            rw [h2] at hm'
            exact ih (i - rs0.length) m hm hassist m' hm'

theorem Repaired.tool_located {l : List Message} (h : Repaired l) :
    ∀ (i : Nat) (r : Message), l[i]? = some r → r.role = Role.tool →
      ∃ (k : Nat) (a : Message) (j : Nat), l[k]? = some a
          ∧ a.role = Role.assistant ∧ j < (callsOf a).length ∧ i = k + 1 + j := by
  induction h with
  | nil => intro i r hr; simp at hr
  | plain hrole hcalls hrep ih =>
      rename_i m0 l0
      intro i r hr htool
      cases i with
      | zero =>
          simp only [List.getElem?_cons_zero, Option.some.injEq] at hr
          subst hr
          exact absurd htool hrole
      | succ i =>
          simp only [List.getElem?_cons_succ] at hr
          obtain ⟨k, a, j, hk, ha, hj, hi⟩ := ih i r hr htool
          exact ⟨k + 1, a, j, by rw [List.getElem?_cons_succ]; exact hk, ha, hj, by omega⟩
  | block hcalls hresp hrep ih =>
      rename_i m0 rs0 l0
      intro i r hr htool
      have hlen : rs0.length = (callsOf m0).length := respondsToB_length _ _ hresp
      cases i with
      | zero =>
          simp only [List.getElem?_cons_zero, Option.some.injEq] at hr
          subst hr
          have h1 := hcalls.1
          rw [htool] at h1
          exact absurd h1 (by decide)
      | succ i =>
          simp only [List.getElem?_cons_succ] at hr
          by_cases hi : i < rs0.length
          · exact ⟨0, m0, i, by simp, hcalls.1, by omega, by omega⟩
          · have hge : rs0.length ≤ i := Nat.le_of_not_lt hi
            rw [List.getElem?_append_right hge] at hr
            obtain ⟨k, a, j, hk, ha, hj, hik⟩ := ih (i - rs0.length) r hr htool
            refine ⟨k + rs0.length + 1, a, j, ?_, ha, hj, by omega⟩
            rw [List.getElem?_cons_succ]
            rw [List.getElem?_append_right (by omega : rs0.length ≤ k + rs0.length)]
            have h2 : k + rs0.length - rs0.length = k := by omega
            rw [h2]
            exact hk

/-- Soundness of a response lookup: whatever it returns is a tool
message referencing the looked-up id. -/
def lookupSound (M : List Char → Option Message) : Prop :=
  ∀ t r, M t = some r → r.role = Role.tool ∧ r.tool_call_id = some t

theorem lookupToolResponse_sound (msgs : List Message) :
    ∀ (t : List Char) (r : Message), lookupToolResponse msgs t = some r →
      r ∈ msgs ∧ r.role = Role.tool ∧ truthyId r ∧ r.tool_call_id = some t := by
  induction msgs with
  | nil => intro t r h; simp [lookupToolResponse] at h
  | cons m rest ih =>
      intro t r h
      simp only [lookupToolResponse] at h
      cases hrest : lookupToolResponse rest t with
      | some r' =>
          rw [hrest] at h
          simp only [Option.some.injEq] at h
          subst h
          obtain ⟨hmem, h2, h3, h4⟩ := ih t r' hrest
          exact ⟨List.mem_cons_of_mem m hmem, h2, h3, h4⟩
      | none =>
          rw [hrest] at h
          by_cases hc : m.role = Role.tool ∧ truthyId m ∧ m.tool_call_id = some t
          · rw [if_pos hc] at h
            simp only [Option.some.injEq] at h
            subst h
            exact ⟨List.mem_cons_self m rest, hc.1, hc.2.1, hc.2.2⟩
          · rw [if_neg hc] at h
            simp at h

theorem lookupToolResponse_isSome (msgs : List Message) :
    ∀ (t : List Char) (r : Message), r ∈ msgs → r.role = Role.tool →
      r.tool_call_id = some t → t ≠ [] →
      ∃ r', lookupToolResponse msgs t = some r' := by
  induction msgs with
  | nil => intro t r h; simp at h
  | cons m rest ih =>
      intro t r hmem htool hid hne
      simp only [lookupToolResponse]
      cases hrest : lookupToolResponse rest t with
      | some r' => exact ⟨r', rfl⟩
      | none =>
          rcases List.mem_cons.mp hmem with rfl | hmem'
          · have hcond : r.role = Role.tool ∧ truthyId r ∧ r.tool_call_id = some t := by
              refine ⟨htool, ?_, hid⟩
              unfold truthyId
              rw [hid]
              exact hne
            rw [if_pos hcond]
            exact ⟨r, rfl⟩
          · obtain ⟨r', hr'⟩ := ih t r hmem' htool hid hne
            rw [hrest] at hr'
            simp at hr'

theorem responseForCall_spec (M : List Char → Option Message) (hM : lookupSound M)
    (tc : ToolCall) :
    (responseForCall M tc).role = Role.tool
      ∧ (responseForCall M tc).tool_call_id = some tc.id := by
  unfold responseForCall
  cases hc : M tc.id with
  | some r => exact hM tc.id r hc
  | none => exact ⟨rfl, rfl⟩

theorem respondsToB_map (M : List Char → Option Message) (hM : lookupSound M) :
    ∀ cs : List ToolCall, respondsToB cs (cs.map (responseForCall M)) = true := by
  intro cs
  induction cs with
  | nil => rfl
  | cons tc cs ih =>
      simp only [List.map_cons, respondsToB]
      rw [if_pos (responseForCall_spec M hM tc)]
      exact ih

/-- The rebuild produced by the repairer always satisfies the block
invariant, whatever (sound) lookup it consults. -/
theorem repaired_flatMap (M : List Char → Option Message) (hM : lookupSound M) :
    ∀ ms : List Message, Repaired (ms.flatMap (expandMessage M)) := by
  intro ms
  induction ms with
  | nil => exact Repaired.nil
  | cons m rest ih =>
      rw [List.flatMap_cons]
      unfold expandMessage
      by_cases htool : m.role = Role.tool
      · rw [if_pos htool]
        simpa using ih
      · rw [if_neg htool]
        by_cases hcalls : hasToolCalls m
        · rw [if_pos hcalls]
          rw [List.cons_append]
          exact Repaired.block hcalls (respondsToB_map M hM (callsOf m)) ih
        · rw [if_neg hcalls]
          rw [List.cons_append, List.nil_append]
          exact Repaired.plain htool hcalls ih

theorem fix_repaired (msgs : List Message) : Repaired (fixToolCallsMessages msgs) := by
  unfold fixToolCallsMessages
  apply repaired_flatMap
  intro t r h
  obtain ⟨_, h2, _, h4⟩ := lookupToolResponse_sound msgs t r h
  exact ⟨h2, h4⟩

/-- C1: in the repairer's output, every assistant message carrying N
tool calls is immediately followed by exactly N tool-response messages
whose `tool_call_id`s equal the call ids in listed order (first
conjunct: each of the N following positions holds the matching
response; second conjunct: the position after those N is not a tool
message), and no tool-response message appears anywhere else (third
conjunct: every tool message sits at some offset `k + 1 + j` inside the
response block of an assistant message at `k`). -/
theorem fixToolCalls_invariant (msgs : List Message) :
    (∀ (i : Nat) (m : Message), (fixToolCallsMessages msgs)[i]? = some m →
       m.role = Role.assistant →
       ∀ (j : Nat) (c : ToolCall), (callsOf m)[j]? = some c →
         ∃ r, (fixToolCallsMessages msgs)[i + 1 + j]? = some r
             ∧ r.role = Role.tool ∧ r.tool_call_id = some c.id)
    ∧ (∀ (i : Nat) (m : Message), (fixToolCallsMessages msgs)[i]? = some m →
         m.role = Role.assistant →
         ∀ m', (fixToolCallsMessages msgs)[i + 1 + (callsOf m).length]? = some m' →
           m'.role ≠ Role.tool)
    ∧ (∀ (i : Nat) (r : Message), (fixToolCallsMessages msgs)[i]? = some r →
         r.role = Role.tool →
         ∃ (k : Nat) (a : Message) (j : Nat), (fixToolCallsMessages msgs)[k]? = some a
             ∧ a.role = Role.assistant ∧ j < (callsOf a).length ∧ i = k + 1 + j) :=
  ⟨(fix_repaired msgs).block_responses,
   (fix_repaired msgs).block_end,
   (fix_repaired msgs).tool_located⟩

/-- An assistant message with one tool call, used as a concrete check. -/
def exAssistant : Message :=
  { role := Role.assistant
  , content := Content.str []
  , tool_calls := some [{ id := ("c1").data, name := ("f").data, arguments := ("{}").data }]
  , tool_call_id := none }

/-- The matching tool response. -/
def exResponse : Message :=
  { role := Role.tool
  , content := Content.str ("ok").data
  , tool_calls := none
  , tool_call_id := some ("c1").data }

theorem fixToolCalls_invariant_witness :
    ∃ r, (fixToolCallsMessages [exAssistant, exResponse])[0 + 1 + 0]? = some r
        ∧ r.role = Role.tool ∧ r.tool_call_id = some (("c1").data) := by
  exact (fixToolCalls_invariant [exAssistant, exResponse]).1 0 exAssistant
    (by decide) (by decide)
    0 { id := ("c1").data, name := ("f").data, arguments := ("{}").data } (by decide)

/-- A sanitized id: non-empty and within `[A-Za-z0-9_-]` (exactly the
ids that `sanitizeToolId` maps to themselves). -/
def idSanitizedB (t : List Char) : Bool :=
  !t.isEmpty && t.all isWordChar

/-- All tool-call ids and tool-response ids of a message are in
sanitized form (what `sanitizeToolIdsInMessages` guarantees for the
fields it rewrites). -/
def messageIdsSanitized (m : Message) : Bool :=
  (if m.role = Role.tool then
     (match m.tool_call_id with
      | some t => idSanitizedB t
      | none => true)
   else true)
  && (callsOf m).all (fun tc => idSanitizedB tc.id)

/-- Every message of the list has sanitized ids. -/
def sanitizedB (msgs : List Message) : Bool :=
  msgs.all messageIdsSanitized

/-- No two distinct tool-response messages of the list share a
`tool_call_id`. -/
def noDupToolIds (msgs : List Message) : Prop :=
  ∀ r₁ ∈ msgs, ∀ r₂ ∈ msgs, r₁.role = Role.tool → r₂.role = Role.tool →
    r₁.tool_call_id = r₂.tool_call_id → r₁ = r₂

instance (msgs : List Message) : Decidable (noDupToolIds msgs) := by
  unfold noDupToolIds; infer_instance

theorem map_eq_of_respondsTo (M : List Char → Option Message) :
    ∀ (cs : List ToolCall) (rs : List Message), respondsToB cs rs = true →
      (∀ r ∈ rs, ∀ t, r.tool_call_id = some t → M t = some r) →
      cs.map (responseForCall M) = rs := by
  intro cs
  induction cs with
  | nil =>
      intro rs h hMap
      cases rs with
      | nil => rfl
      | cons r rs => simp [respondsToB] at h
  | cons tc cs ih =>
      intro rs h hMap
      cases rs with
      | nil => simp [respondsToB] at h
      | cons r rs =>
          simp only [respondsToB] at h
          by_cases hc : r.role = Role.tool ∧ r.tool_call_id = some tc.id
          · rw [if_pos hc] at h
            have hhd : responseForCall M tc = r := by
              unfold responseForCall
              rw [hMap r (List.mem_cons_self r rs) tc.id hc.2]
            rw [List.map_cons, hhd,
              ih rs h (fun r' hr' t ht => hMap r' (List.mem_cons_of_mem r hr') t ht)]
          · rw [if_neg hc] at h
            exact absurd h (by simp)

theorem flatMap_expand_nil_of_tools (M : List Char → Option Message) :
    ∀ rs : List Message, (∀ r ∈ rs, r.role = Role.tool) →
      rs.flatMap (expandMessage M) = [] := by
  intro rs
  induction rs with
  | nil => intro; rfl
  | cons r rest ih =>
      intro hall
      rw [List.flatMap_cons]
      unfold expandMessage
      rw [if_pos (hall r (List.mem_cons_self r rest)), List.nil_append]
      exact ih (fun a ha => hall a (List.mem_cons_of_mem r ha))

theorem expandMessage_of_tool (M : List Char → Option Message) (m : Message)
    (h : m.role = Role.tool) : expandMessage M m = [] := by
  unfold expandMessage
  rw [if_pos h]

theorem expandMessage_of_plain (M : List Char → Option Message) (m : Message)
    (h1 : ¬ m.role = Role.tool) (h2 : ¬ hasToolCalls m) :
    expandMessage M m = [m] := by
  unfold expandMessage
  rw [if_neg h1, if_neg h2]

theorem expandMessage_of_block (M : List Char → Option Message) (m : Message)
    (h1 : ¬ m.role = Role.tool) (h2 : hasToolCalls m) :
    expandMessage M m = m :: (callsOf m).map (responseForCall M) := by
  unfold expandMessage
  rw [if_neg h1, if_pos h2]

theorem flatMap_expand_eq_self (M : List Char → Option Message) :
    ∀ l : List Message, Repaired l →
      (∀ r ∈ l, r.role = Role.tool → ∀ t, r.tool_call_id = some t → M t = some r) →
      l.flatMap (expandMessage M) = l := by
  intro l h
  induction h with
  | nil => intro; rfl
  | plain hrole hcalls hrep ih =>
      rename_i m0 l0
      intro hMap
      rw [List.flatMap_cons, expandMessage_of_plain M m0 hrole hcalls,
        List.cons_append, List.nil_append,
        ih (fun r hr ht t hid => hMap r (List.mem_cons_of_mem m0 hr) ht t hid)]
  | block hcalls hresp hrep ih =>
      rename_i m0 rs0 l0
      intro hMap
      have hrole : ¬ m0.role = Role.tool := by
        have h1 := hcalls.1
        rw [h1]
        decide
      have hall : ∀ r ∈ rs0, r.role = Role.tool := respondsToB_tool _ _ hresp
      have hmapeq : (callsOf m0).map (responseForCall M) = rs0 := by
        apply map_eq_of_respondsTo M (callsOf m0) rs0 hresp
        intro r hr t ht
        exact hMap r (List.mem_cons_of_mem m0 (List.mem_append_left l0 hr))
          (hall r hr) t ht
      have htail : (rs0 ++ l0).flatMap (expandMessage M) = l0 := by
        rw [List.flatMap_append,
          flatMap_expand_nil_of_tools M rs0 hall, List.nil_append]
        exact ih (fun r hr ht t hid =>
          hMap r (List.mem_cons_of_mem m0 (List.mem_append_right rs0 hr)) ht t hid)
      rw [List.flatMap_cons, expandMessage_of_block M m0 hrole hcalls, hmapeq,
        htail, List.cons_append]

/-- C6 counterexample: two assistant messages each calling the SAME id
`"x"`, each immediately followed by its own (distinct) response.  This
list is already sanitized and satisfies the repairer's ordering
invariant, yet the repairer changes it: its last-write-wins response
map sends both calls to the second response. -/
def c6a1 : Message :=
  { role := Role.assistant, content := Content.str []
  , tool_calls := some [{ id := ("x").data, name := ("f").data, arguments := [] }]
  , tool_call_id := none }

/-- First response for id `"x"`. -/
def c6r1 : Message :=
  { role := Role.tool, content := Content.str ("1").data
  , tool_calls := none, tool_call_id := some ("x").data }

/-- Second assistant calling the same id `"x"`. -/
def c6a2 : Message :=
  { role := Role.assistant, content := Content.str []
  , tool_calls := some [{ id := ("x").data, name := ("g").data, arguments := [] }]
  , tool_call_id := none }

/-- Second, different response for id `"x"`. -/
def c6r2 : Message :=
  { role := Role.tool, content := Content.str ("2").data
  , tool_calls := none, tool_call_id := some ("x").data }

theorem fixToolCalls_not_idempotent_on_invariant :
    Repaired [c6a1, c6r1, c6a2, c6r2]
      ∧ sanitizedB [c6a1, c6r1, c6a2, c6r2] = true
      ∧ fixToolCallsMessages [c6a1, c6r1, c6a2, c6r2] ≠ [c6a1, c6r1, c6a2, c6r2] := by
  refine ⟨?_, by decide, by decide⟩
  exact @Repaired.block c6a1 [c6r1] [c6a2, c6r2] (by decide) (by decide)
    (@Repaired.block c6a2 [c6r2] [] (by decide) (by decide) Repaired.nil)

/-- C6 amended: the repairer is the identity on every already-sanitized
list satisfying its ordering invariant in which no two distinct
tool-response messages share a `tool_call_id` (without that distinctness
proviso the last-write-wins response map can replace an earlier
duplicate-id response, as the counterexample shows). -/
theorem fixToolCalls_noop (msgs : List Message) (hrep : Repaired msgs)
    (hsan : sanitizedB msgs = true) (hdup : noDupToolIds msgs) :
    fixToolCallsMessages msgs = msgs := by
  unfold fixToolCallsMessages
  apply flatMap_expand_eq_self _ _ hrep
  intro r hr htool t hid
  have hne : t ≠ [] := by
    have hm := (List.all_eq_true.mp hsan) r hr
    unfold messageIdsSanitized at hm
    rw [if_pos htool, hid] at hm
    simp only [Bool.and_eq_true] at hm
    obtain ⟨h1, _⟩ := hm
    unfold idSanitizedB at h1
    simp only [Bool.and_eq_true] at h1
    obtain ⟨h2, _⟩ := h1
    intro habs
    rw [habs] at h2
    simp at h2
  obtain ⟨r', hr'⟩ := lookupToolResponse_isSome msgs t r hr htool hid hne
  obtain ⟨hmem', htool', _, hid'⟩ := lookupToolResponse_sound msgs t r' hr'
  rw [hr']
  congr 1
  exact hdup r' hmem' r hr htool' htool (by rw [hid, hid'])

theorem fixToolCalls_noop_witness :
    fixToolCallsMessages [exAssistant, exResponse] = [exAssistant, exResponse] := by
  apply fixToolCalls_noop
  · exact @Repaired.block exAssistant [exResponse] [] (by decide) (by decide) Repaired.nil
  · decide
  · decide

/-! ## Claim C3: the must-keep tool-chain scan -/

theorem lastToolIdxFrom_none (items : List TruncItem) :
    ∀ pos : Nat, lastToolIdxFrom pos items = none
      ↔ ∀ it ∈ items, it.category ≠ MessageCategory.tool_context := by
  induction items with
  | nil => intro pos; simp [lastToolIdxFrom]
  | cons it rest ih =>
      intro pos
      simp only [lastToolIdxFrom]
      cases hrest : lastToolIdxFrom (pos + 1) rest with
      | some k =>
          simp only [reduceCtorEq, false_iff, not_forall]
          have := (ih (pos + 1)).not.mp (by simp [hrest])
          push_neg at this
          obtain ⟨a, ha, hcat⟩ := this
          exact ⟨a, List.mem_cons_of_mem it ha, by simpa using hcat⟩
      | none =>
          by_cases hcat : it.category = MessageCategory.tool_context
          · simp only [if_pos hcat, reduceCtorEq, false_iff, not_forall]
            exact ⟨it, List.mem_cons_self it rest, by simpa using hcat⟩
          · simp only [if_neg hcat]
            constructor
            · intro _ a ha
              rcases List.mem_cons.mp ha with rfl | ha'
              · exact hcat
              · exact (ih (pos + 1)).mp hrest a ha'
            · intro _
              trivial

theorem lastToolIdxFrom_sound (items : List TruncItem) :
    ∀ (pos k : Nat), lastToolIdxFrom pos items = some k →
      pos ≤ k ∧ ∃ it, items[k - pos]? = some it
          ∧ it.category = MessageCategory.tool_context := by
  induction items with
  | nil => intro pos k h; simp [lastToolIdxFrom] at h
  | cons it rest ih =>
      intro pos k h
      simp only [lastToolIdxFrom] at h
      cases hrest : lastToolIdxFrom (pos + 1) rest with
      | some k' =>
          rw [hrest] at h
          simp only [Option.some.injEq] at h
          subst h
          obtain ⟨hle, it', hit', hcat'⟩ := ih (pos + 1) k' hrest
          refine ⟨by omega, it', ?_, hcat'⟩
          have harith : k' - pos = (k' - (pos + 1)) + 1 := by omega
          rw [harith, List.getElem?_cons_succ]
          exact hit'
      | none =>
          rw [hrest] at h
          by_cases hcat : it.category = MessageCategory.tool_context
          · rw [if_pos hcat] at h
            simp only [Option.some.injEq] at h
            subst h
            exact ⟨Nat.le_refl _, it, by simp, hcat⟩
          · rw [if_neg hcat] at h
            simp at h

theorem idxZipItems_length (items : List TruncItem) :
    ∀ n, (idxZipItems n items).length = items.length := by
  induction items with
  | nil => intro n; rfl
  | cons it rest ih => intro n; simp [idxZipItems, ih]

theorem idxZipItems_getElem (items : List TruncItem) :
    ∀ (n i : Nat), (idxZipItems n items)[i]? = items[i]?.map (fun it => (n + i, it)) := by
  induction items with
  | nil => intro n i; simp [idxZipItems]
  | cons it rest ih =>
      intro n i
      cases i with
      | zero => simp [idxZipItems]
      | succ i =>
          simp only [idxZipItems, List.getElem?_cons_succ, ih (n + 1) i]
          have : n + 1 + i = n + (i + 1) := by omega
          rw [this]

theorem idxZipItems_mem (items : List TruncItem) :
    ∀ (n p : Nat) (it : TruncItem), (p, it) ∈ idxZipItems n items →
      n ≤ p ∧ items[p - n]? = some it := by
  induction items with
  | nil => intro n p it h; simp [idxZipItems] at h
  | cons it0 rest ih =>
      intro n p it h
      simp only [idxZipItems, List.mem_cons] at h
      rcases h with heq | hmem
      · obtain ⟨h1, h2⟩ := Prod.mk.injEq .. ▸ heq
        subst h1
        subst h2
        exact ⟨Nat.le_refl _, by simp⟩
      · obtain ⟨hle, hget⟩ := ih (n + 1) p it hmem
        refine ⟨by omega, ?_⟩
        have harith : p - n = (p - (n + 1)) + 1 := by omega
        rw [harith, List.getElem?_cons_succ]
        exact hget

theorem chainCollect_sound (k : Nat) :
    ∀ (l : List (Nat × TruncItem)) (i : Nat), i ∈ chainCollect k l →
      ∃ (p : Nat) (it : TruncItem), (p, it) ∈ l ∧ it.index = i
          ∧ it.category = MessageCategory.tool_context := by
  intro l
  induction l with
  | nil => intro i h; simp [chainCollect] at h
  | cons pit rest ih =>
      intro i h
      obtain ⟨p, it⟩ := pit
      simp only [chainCollect] at h
      by_cases hcat : it.category = MessageCategory.tool_context
      · rw [if_pos hcat] at h
        rcases List.mem_cons.mp h with rfl | hmem
        · exact ⟨p, it, List.mem_cons_self _ _, rfl, hcat⟩
        · obtain ⟨p', it', hm, hi, hc⟩ := ih i hmem
          exact ⟨p', it', List.mem_cons_of_mem _ hm, hi, hc⟩
      · rw [if_neg hcat] at h
        by_cases hreg : it.category = MessageCategory.regular ∧ p < k
        · rw [if_pos hreg] at h
          simp at h
        · rw [if_neg hreg] at h
          obtain ⟨p', it', hm, hi, hc⟩ := ih i h
          exact ⟨p', it', List.mem_cons_of_mem _ hm, hi, hc⟩

/-- C3 amended: the chain rule scans backward from the end of the
conversation, but does NOT stop at the first non-tool-context message:
it first skips back to the most recent tool-context message wherever it
is, includes it, and then collects tool-context messages walking
backward (stopping only at a regular message strictly before that
point).  Consequently: (1) if no message is tool-context, nothing is
added; (2) whenever a tool-context message exists, the most recent one
is added even when the conversation's last message is not tool-context;
(3) only tool-context messages are ever added. -/
theorem chainScan_spec (items : List TruncItem) :
    ((∀ it ∈ items, it.category ≠ MessageCategory.tool_context) → chainIndices items = [])
    ∧ (∀ k, lastToolIdx items = some k →
        ∃ it, items[k]? = some it ∧ it.category = MessageCategory.tool_context
            ∧ it.index ∈ chainIndices items)
    ∧ (∀ i ∈ chainIndices items,
        ∃ (j : Nat) (it : TruncItem), items[j]? = some it ∧ it.index = i
            ∧ it.category = MessageCategory.tool_context) := by
  refine ⟨?_, ?_, ?_⟩
  · intro hno
    unfold chainIndices lastToolIdx
    rw [(lastToolIdxFrom_none items 0).mpr hno]
  · intro k hk
    obtain ⟨-, it, hit, hcat⟩ := lastToolIdxFrom_sound items 0 k hk
    rw [Nat.sub_zero] at hit
    refine ⟨it, hit, hcat, ?_⟩
    unfold chainIndices
    rw [show lastToolIdx items = some k from hk]
    show it.index ∈ chainCollect k ((idxZipItems 0 items).take (k + 1)).reverse
    have hklt : k < items.length := (List.getElem?_eq_some_iff.mp hit).1
    have hzlen : (idxZipItems 0 items).length = items.length := idxZipItems_length items 0
    have htlen : ((idxZipItems 0 items).take (k + 1)).length = k + 1 := by
      simp [List.length_take]
      omega
    have hlast : ((idxZipItems 0 items).take (k + 1)).getLast? = some (k, it) := by
      rw [List.getLast?_eq_getElem?, htlen]
      have : k + 1 - 1 = k := by omega
      rw [this, List.getElem?_take_of_lt (by omega : k < k + 1), idxZipItems_getElem]
      rw [hit]
      simp
    cases hrev : ((idxZipItems 0 items).take (k + 1)).reverse with
    | nil =>
        rw [List.reverse_eq_nil_iff] at hrev
        rw [hrev] at htlen
        simp at htlen
    | cons hd tl =>
        have hhd : hd = (k, it) := by
          have hh : (hd :: tl).head? = some (k, it) := by
            rw [← hrev, List.head?_reverse, hlast]
          simpa using hh
        rw [hhd]
        simp only [chainCollect, if_pos hcat]
        exact List.mem_cons_self _ _
  · intro i hi
    unfold chainIndices at hi
    cases hk : lastToolIdx items with
    | none => rw [hk] at hi; simp at hi
    | some k =>
        rw [hk] at hi
        obtain ⟨p, it, hm, hidx, hcat⟩ := chainCollect_sound k _ i hi
        have hm' : (p, it) ∈ idxZipItems 0 items :=
          List.mem_of_mem_take (List.mem_reverse.mp hm)
        obtain ⟨-, hget⟩ := idxZipItems_mem items 0 p it hm'
        rw [Nat.sub_zero] at hget
        exact ⟨p, it, hget, hidx, hcat⟩

/-- A plain user message. -/
def exUser : Message :=
  { role := Role.user, content := Content.str ("hi").data
  , tool_calls := none, tool_call_id := none }

/-- C3 counterexample: in `[assistant-with-call, tool-response, user]`
the last message is regular (not tool-context), yet the chain rule still
adds the tool chain (indices 1 and 0) to the must-keep set — the scan
skips the trailing regular message instead of stopping at it. -/
theorem chainScan_trailing_regular_counterexample :
    categorizeMessage exUser = MessageCategory.regular
      ∧ chainIndices (categorizeAll [c6a1, c6r1, exUser]) = [1, 0] := by
  constructor
  · decide
  · decide

theorem chainScan_spec_witness :
    ∃ it, (categorizeAll [c6a1, c6r1, exUser])[1]? = some it
        ∧ it.category = MessageCategory.tool_context
        ∧ it.index ∈ chainIndices (categorizeAll [c6a1, c6r1, exUser]) := by
  exact (chainScan_spec (categorizeAll [c6a1, c6r1, exUser])).2.1 1 (by decide)

/-! ## Claim C8: the tool-result compression formula -/

/-- `retained_length` of the claim:
`floor(original_length * (ceiling / current_cost) * 0.9)`
with ceiling 8000. -/
def claimRetained (len cost : Nat) : Nat :=
  len * 8000 * 9 / (cost * 10)

/-- Head-fragment length: `floor(retained_length * 0.6)`. -/
def claimHead (len cost : Nat) : Nat :=
  claimRetained len cost * 6 / 10

/-- Tail-fragment length: `floor(retained_length * 0.3)`. -/
def claimTail (len cost : Nat) : Nat :=
  claimRetained len cost * 3 / 10

theorem claimRetained_le (len cost : Nat) (h : 8000 < cost) :
    claimRetained len cost ≤ len := by
  unfold claimRetained
  calc len * 8000 * 9 / (cost * 10)
      ≤ len * (cost * 10) / (cost * 10) := by
        apply Nat.div_le_div_right
        have : 8000 * 9 ≤ cost * 10 := by omega
        calc len * 8000 * 9 = len * (8000 * 9) := by ring
          _ ≤ len * (cost * 10) := Nat.mul_le_mul_left len this
    _ = len := Nat.mul_div_cancel len (by omega)

theorem claimHead_le (len cost : Nat) : claimHead len cost ≤ claimRetained len cost := by
  unfold claimHead
  calc claimRetained len cost * 6 / 10
      ≤ claimRetained len cost * 10 / 10 :=
        Nat.div_le_div_right (Nat.mul_le_mul_left _ (by omega))
    _ = claimRetained len cost := Nat.mul_div_cancel _ (by omega)

theorem claimTail_le (len cost : Nat) : claimTail len cost ≤ claimRetained len cost := by
  unfold claimTail
  calc claimRetained len cost * 3 / 10
      ≤ claimRetained len cost * 10 / 10 :=
        Nat.div_le_div_right (Nat.mul_le_mul_left _ (by omega))
    _ = claimRetained len cost := Nat.mul_div_cancel _ (by omega)

/-- C8 amended: a string-content message whose estimated cost is at most
the 8000-token ceiling is returned unchanged; one over the ceiling is
compressed to head fragment (`floor(retained * 0.6)` characters) ++
elision marker naming the elided-character count ++ tail fragment
(`floor(retained * 0.3)` characters, as the LAST characters of the
content) — PROVIDED the tail length is at least 1.  (When the computed
tail length is 0 the source's `content.slice(-0)` returns the whole
content instead of an empty tail, so the claimed shape fails; see the
counterexample.) -/
theorem compress_str_eval (m : Message) (s : List Char)
    (hc : m.content = Content.str s) :
    (estimateMessageTokens m ≤ 8000 → compressToolResult m 8000 = m)
    ∧ (8000 < estimateMessageTokens m →
       1 ≤ claimTail s.length (estimateMessageTokens m) →
       compressToolResult m 8000
           = { role := m.role
             , content := Content.str
                 (s.take (claimHead s.length (estimateMessageTokens m))
                   ++ elisionMarker (s.length
                       - claimHead s.length (estimateMessageTokens m)
                       - claimTail s.length (estimateMessageTokens m))
                   ++ lastChars s (claimTail s.length (estimateMessageTokens m)))
             , tool_calls := m.tool_calls
             , tool_call_id := m.tool_call_id }
         ∧ (s.take (claimHead s.length (estimateMessageTokens m))).length
             = claimHead s.length (estimateMessageTokens m)
         ∧ (lastChars s (claimTail s.length (estimateMessageTokens m))).length
             = claimTail s.length (estimateMessageTokens m)) := by
  constructor
  · intro hle
    unfold compressToolResult
    rw [if_pos hle]
  · intro hgt htail
    have hhead_le : claimHead s.length (estimateMessageTokens m) ≤ s.length :=
      le_trans (claimHead_le _ _) (claimRetained_le _ _ hgt)
    have htail_le : claimTail s.length (estimateMessageTokens m) ≤ s.length :=
      le_trans (claimTail_le _ _) (claimRetained_le _ _ hgt)
    refine ⟨?_, ?_, ?_⟩
    · unfold compressToolResult
      rw [if_neg (by omega), hc]
      simp only []
      unfold claimHead claimTail claimRetained lastChars jsSliceNeg
      unfold claimTail claimRetained at htail
      rw [if_neg (by omega)]
    · rw [List.length_take]
      omega
    · unfold lastChars
      rw [List.length_drop]
      omega

/-- C8, as amended (see `compress_str_eval` for the proof): unchanged at
or below the ceiling; above it, head fragment of `floor(retained * 0.6)`
characters ++ elision marker naming the elided count ++ tail fragment of
`floor(retained * 0.3)` characters, provided that tail length is at
least 1. -/
theorem compressToolResult_spec (m : Message) (s : List Char)
    (hc : m.content = Content.str s) :
    (estimateMessageTokens m ≤ 8000 → compressToolResult m 8000 = m)
    ∧ (8000 < estimateMessageTokens m →
       1 ≤ claimTail s.length (estimateMessageTokens m) →
       compressToolResult m 8000
           = { role := m.role
             , content := Content.str
                 (s.take (claimHead s.length (estimateMessageTokens m))
                   ++ elisionMarker (s.length
                       - claimHead s.length (estimateMessageTokens m)
                       - claimTail s.length (estimateMessageTokens m))
                   ++ lastChars s (claimTail s.length (estimateMessageTokens m)))
             , tool_calls := m.tool_calls
             , tool_call_id := m.tool_call_id }
         ∧ (s.take (claimHead s.length (estimateMessageTokens m))).length
             = claimHead s.length (estimateMessageTokens m)
         ∧ (lastChars s (claimTail s.length (estimateMessageTokens m))).length
             = claimTail s.length (estimateMessageTokens m)) :=
  compress_str_eval m s hc

/-- Cost of a tool message with string content and a (non-empty)
referenced id: content characters plus id characters. -/
theorem estimate_tool_str (s idc : List Char) (hid : idc ≠ []) :
    estimateMessageTokens
        { role := Role.tool, content := Content.str s
        , tool_calls := none, tool_call_id := some idc }
      = (s.length + idc.length + 3) / 4 + 4 := by
  unfold estimateMessageTokens messageText contentChars
  rw [if_neg (by decide : ¬ (Role.tool = Role.assistant))]
  rw [if_pos (⟨rfl, hid⟩ :
    Role.tool = Role.tool
      ∧ truthyId { role := Role.tool, content := Content.str s
                 , tool_calls := none, tool_call_id := some idc })]
  simp only [List.length_append, List.length_nil]
  have harith : s.length + 0 + idc.length = s.length + idc.length := by omega
  rw [harith]

/-- A tool result of 40000 characters with a one-character id: estimated
cost 10005 tokens, over the 8000 ceiling. -/
def bigToolResult : Message :=
  { role := Role.tool, content := Content.str (List.replicate 40000 'a')
  , tool_calls := none, tool_call_id := some ("x").data }

theorem bigToolResult_cost : estimateMessageTokens bigToolResult = 10005 := by
  have h := estimate_tool_str (List.replicate 40000 'a') ("x").data (by decide)
  rw [List.length_replicate] at h
  unfold bigToolResult
  rw [h]
  decide

/-- A tiny tool result (4 characters) whose 40000-character id pushes
the estimated cost over the ceiling, driving the computed tail length
to 0. -/
def tinyContentBigId : Message :=
  { role := Role.tool, content := Content.str ("abcd").data
  , tool_calls := none, tool_call_id := some (List.replicate 40000 'x') }

theorem tinyContentBigId_cost : estimateMessageTokens tinyContentBigId = 10005 := by
  have hne : List.replicate 40000 'x' ≠ [] := by
    intro h
    have h2 := congrArg List.length h
    rw [List.length_replicate] at h2
    simp at h2
  have h := estimate_tool_str ("abcd").data (List.replicate 40000 'x') hne
  rw [List.length_replicate] at h
  unfold tinyContentBigId
  rw [h]
  decide

/-- Evaluation of `compressToolResult` in the zero-tail-length corner:
`content.slice(-0)` is the whole content, so the result is head ++
marker ++ ENTIRE content. -/
theorem compress_tail0_eval (m : Message) (s : List Char) (hc : m.content = Content.str s)
    (hgt : 8000 < estimateMessageTokens m)
    (ht0 : claimTail s.length (estimateMessageTokens m) = 0) :
    compressToolResult m 8000
      = { role := m.role
        , content := Content.str (s.take (claimHead s.length (estimateMessageTokens m))
            ++ elisionMarker (s.length - claimHead s.length (estimateMessageTokens m)
                - claimTail s.length (estimateMessageTokens m))
            ++ s)
        , tool_calls := m.tool_calls, tool_call_id := m.tool_call_id } := by
  unfold compressToolResult
  rw [if_neg (by omega), hc]
  simp only []
  unfold claimTail claimRetained at ht0
  unfold claimHead claimTail claimRetained
  rw [show jsSliceNeg s (s.length * 8000 * 9 / (estimateMessageTokens m * 10) * 3 / 10) = s from by
    unfold jsSliceNeg
    rw [if_pos ht0]]

/-- C8 counterexample: for `tinyContentBigId` the cost 10005 exceeds the
ceiling and the computed tail length is 0, but `content.slice(-0)`
yields the whole 4-character content, so the compressed content is NOT
head ++ marker ++ (0-character tail) as the claim requires — the tail
fragment is the entire original content. -/
theorem compress_tail_zero_counterexample :
    8000 < estimateMessageTokens tinyContentBigId
      ∧ claimTail (("abcd").data).length (estimateMessageTokens tinyContentBigId) = 0
      ∧ (compressToolResult tinyContentBigId 8000).content
          ≠ Content.str ((("abcd").data).take
                (claimHead (("abcd").data).length (estimateMessageTokens tinyContentBigId))
              ++ elisionMarker ((("abcd").data).length
                  - claimHead (("abcd").data).length (estimateMessageTokens tinyContentBigId)
                  - claimTail (("abcd").data).length (estimateMessageTokens tinyContentBigId))
              ++ lastChars (("abcd").data)
                  (claimTail (("abcd").data).length (estimateMessageTokens tinyContentBigId))) := by
  have hcost := tinyContentBigId_cost
  refine ⟨by omega, by rw [hcost]; decide, ?_⟩
  rw [hcost]
  have ht0 : claimTail (("abcd").data).length (estimateMessageTokens tinyContentBigId) = 0 := by
    rw [hcost]
    decide
  have h := compress_tail0_eval tinyContentBigId ("abcd").data rfl (by omega) ht0
  rw [hcost] at h ht0
  rw [ht0] at h
  have hcontent : (compressToolResult tinyContentBigId 8000).content
      = Content.str ((("abcd").data).take 1 ++ elisionMarker 3 ++ ("abcd").data) := by
    rw [h]
    have hlen : (("abcd").data).length = 4 := by decide
    rw [hlen]
    have hch : claimHead 4 10005 = 1 := by decide
    rw [hch]
  rw [hcontent]
  have hlen4 : (("abcd").data).length = 4 := by decide
  rw [hlen4]
  have hch : claimHead 4 10005 = 1 := by decide
  have hct : claimTail 4 10005 = 0 := by decide
  rw [hch, hct]
  decide

theorem compressToolResult_spec_witness :
    8000 < estimateMessageTokens bigToolResult
      ∧ 1 ≤ claimTail 40000 10005
      ∧ (compressToolResult bigToolResult 8000).content
          = Content.str ((List.replicate 40000 'a').take 17271
              ++ elisionMarker 14094 ++ lastChars (List.replicate 40000 'a') 8635)
      ∧ ((List.replicate 40000 'a').take 17271).length = 17271
      ∧ (lastChars (List.replicate 40000 'a') 8635).length = 8635 := by
  have hcost := bigToolResult_cost
  have h := (compressToolResult_spec bigToolResult (List.replicate 40000 'a') rfl).2
  rw [hcost, List.length_replicate] at h
  have h2 := h (by omega) (by norm_num [claimTail, claimRetained])
  obtain ⟨heq, hlen1, hlen2⟩ := h2
  have hch : claimHead 40000 10005 = 17271 := by norm_num [claimHead, claimRetained]
  have hct : claimTail 40000 10005 = 8635 := by norm_num [claimTail, claimRetained]
  rw [hch] at heq hlen1
  rw [hct] at heq hlen2
  have hel : 40000 - 17271 - 8635 = 14094 := by norm_num
  rw [hel] at heq
  refine ⟨by omega, by norm_num [claimTail, claimRetained], ?_, hlen1, hlen2⟩
  rw [heq]

/-! ## Claim C5: structure of the budget fitter's output -/

/-- `m'` is `m` itself, or `m` with its (tool-result) content compressed
by `compressToolResult` at the 8000-token ceiling. -/
def variantOf (m m' : Message) : Prop :=
  m' = m ∨ (m.role = Role.tool ∧ m' = compressToolResult m 8000)

/-- Order-preserving selection up to the relation `R`: `SublistMod R out inp`
holds when `out` is obtained from `inp` by dropping some elements and
replacing each kept element `m` by some `m'` with `R m m'`. -/
inductive SublistMod (R : Message → Message → Prop) : List Message → List Message → Prop where
  | nil : SublistMod R [] []
  | skip {out inp : List Message} (m : Message) :
      SublistMod R out inp → SublistMod R out (m :: inp)
  | keep {out inp : List Message} {m m' : Message} :
      R m m' → SublistMod R out inp → SublistMod R (m' :: out) (m :: inp)

theorem SublistMod_refl (R : Message → Message → Prop) (hrefl : ∀ m, R m m) :
    ∀ l, SublistMod R l l := by
  intro l
  induction l with
  | nil => exact SublistMod.nil
  | cons m rest ih => exact SublistMod.keep (hrefl m) ih

theorem SublistMod_of_sublist (R : Message → Message → Prop) :
    ∀ {c inp : List Message}, List.Forall₂ (fun m' m => R m m') c inp →
      ∀ {out : List Message}, out.Sublist c → SublistMod R out inp := by
  intro c inp hF
  induction hF with
  | nil =>
      intro out hs
      cases hs
      exact SublistMod.nil
  | cons hR hF ih =>
      rename_i m' m c' inp'
      intro out hs
      cases hs with
      | cons a h => exact SublistMod.skip m (ih h)
      | cons₂ a h => exact SublistMod.keep hR (ih h)

theorem compressToolResult_role (m : Message) (k : Nat) :
    (compressToolResult m k).role = m.role := by
  unfold compressToolResult
  by_cases h : estimateMessageTokens m ≤ k
  · rw [if_pos h]
  · rw [if_neg h]

/-- Alignment of one `categorized`-then-compressed item with the input
message it came from. -/
def itemAligned (it : TruncItem) (m : Message) : Prop :=
  it.category = categorizeMessage m
    ∧ (it.msg = m ∨ (m.role = Role.tool ∧ it.msg = compressToolResult m 8000))

theorem itemAligned_role {it : TruncItem} {m : Message} (h : itemAligned it m) :
    it.msg.role = m.role := by
  rcases h.2 with rfl | ⟨_, hc⟩
  · rfl
  · rw [hc, compressToolResult_role]

theorem itemAligned_msg_of_not_tool {it : TruncItem} {m : Message}
    (h : itemAligned it m) (hrole : m.role ≠ Role.tool) : it.msg = m := by
  rcases h.2 with rfl | ⟨htool, _⟩
  · rfl
  · exact absurd htool hrole

theorem compressItem_aligned (m : Message) (idx : Nat) :
    itemAligned (compressItem
      { msg := m, category := categorizeMessage m
      , tokens := estimateMessageTokens m, index := idx }) m := by
  unfold compressItem
  by_cases h : m.role = Role.tool ∧ 8000 < estimateMessageTokens m
  · rw [if_pos h]
    by_cases h2 : estimateMessageTokens (compressToolResult m 8000) < estimateMessageTokens m
    · rw [if_pos h2]
      exact ⟨rfl, Or.inr ⟨h.1, rfl⟩⟩
    · rw [if_neg h2]
      exact ⟨rfl, Or.inl rfl⟩
  · rw [if_neg h]
    exact ⟨rfl, Or.inl rfl⟩

theorem compressItem_index (it : TruncItem) : (compressItem it).index = it.index := by
  unfold compressItem
  by_cases h : it.msg.role = Role.tool ∧ 8000 < it.tokens
  · rw [if_pos h]
    by_cases h2 : estimateMessageTokens (compressToolResult it.msg 8000) < it.tokens
    · rw [if_pos h2]
    · rw [if_neg h2]
  · rw [if_neg h]

theorem idxZip_mem (msgs : List Message) :
    ∀ (n p : Nat) (m : Message), (p, m) ∈ idxZip n msgs → n ≤ p := by
  induction msgs with
  | nil => intro n p m h; simp [idxZip] at h
  | cons m0 rest ih =>
      intro n p m h
      simp only [idxZip, List.mem_cons] at h
      rcases h with heq | hmem
      · obtain ⟨h1, -⟩ := Prod.mk.injEq .. ▸ heq
        omega
      · have := ih (n + 1) p m hmem
        omega

theorem compressed_aligned (msgs : List Message) :
    ∀ n, List.Forall₂ itemAligned
      (((idxZip n msgs).map (fun p =>
        { msg := p.2, category := categorizeMessage p.2
        , tokens := estimateMessageTokens p.2, index := p.1 })).map compressItem)
      msgs := by
  induction msgs with
  | nil => intro n; exact List.Forall₂.nil
  | cons m rest ih =>
      intro n
      simp only [idxZip, List.map_cons]
      exact List.Forall₂.cons (compressItem_aligned m n) (ih (n + 1))

theorem compressItems_aligned (msgs : List Message) :
    List.Forall₂ itemAligned (compressItems (categorizeAll msgs)) msgs := by
  unfold compressItems categorizeAll
  exact compressed_aligned msgs 0

theorem idxZip_pairwise (msgs : List Message) :
    ∀ n, List.Pairwise (fun p q : Nat × Message => p.1 < q.1) (idxZip n msgs) := by
  induction msgs with
  | nil => intro n; simp [idxZip]
  | cons m rest ih =>
      intro n
      simp only [idxZip]
      refine List.Pairwise.cons ?_ (ih (n + 1))
      intro q hq
      obtain ⟨a, b⟩ := q
      have := idxZip_mem rest (n + 1) a b hq
      show n < a
      omega

theorem compressItems_pairwise (msgs : List Message) :
    List.Pairwise (fun a b => a.index < b.index)
      (compressItems (categorizeAll msgs)) := by
  unfold compressItems categorizeAll
  rw [List.pairwise_map, List.pairwise_map]
  refine (idxZip_pairwise msgs 0).imp ?_
  intro a b h
  rw [compressItem_index, compressItem_index]
  exact h

theorem insertByIdx_of_le (a : TruncItem) (l : List TruncItem)
    (h : ∀ b ∈ l, a.index ≤ b.index) : insertByIdx a l = a :: l := by
  cases l with
  | nil => rfl
  | cons b rest =>
      unfold insertByIdx
      rw [if_pos (h b (List.mem_cons_self b rest))]

theorem sortByIdx_eq_self (l : List TruncItem)
    (h : List.Pairwise (fun a b => a.index < b.index) l) : sortByIdx l = l := by
  induction l with
  | nil => rfl
  | cons a rest ih =>
      obtain ⟨ha, hrest⟩ := List.pairwise_cons.mp h
      unfold sortByIdx
      rw [ih hrest]
      exact insertByIdx_of_le a rest (fun b hb => le_of_lt (ha b hb))

theorem forall₂_getElem {R : TruncItem → Message → Prop} :
    ∀ {items : List TruncItem} {msgs : List Message}, List.Forall₂ R items msgs →
      ∀ {i : Nat} {m : Message}, msgs[i]? = some m →
        ∃ it, items[i]? = some it ∧ R it m := by
  intro items msgs hF
  induction hF with
  | nil => intro i m h; simp at h
  | cons hR hF ih =>
      rename_i it0 m0 items' msgs'
      intro i m h
      cases i with
      | zero =>
          simp only [List.getElem?_cons_zero, Option.some.injEq] at h
          exact ⟨it0, by simp, h ▸ hR⟩
      | succ i =>
          simp only [List.getElem?_cons_succ] at h ⊢
          exact ih h

/-- The most recent user message of a conversation (the spec's
"most recent user message"). -/
def lastUserMsg : List Message → Option Message
  | [] => none
  | m :: rest =>
      match lastUserMsg rest with
      | some u => some u
      | none => if m.role = Role.user then some m else none

theorem lastUserMsg_mem : ∀ (msgs : List Message) (m : Message),
    lastUserMsg msgs = some m → m ∈ msgs := by
  intro msgs
  induction msgs with
  | nil => intro m h; simp [lastUserMsg] at h
  | cons m0 rest ih =>
      intro m h
      simp only [lastUserMsg] at h
      cases hrest : lastUserMsg rest with
      | some u =>
          rw [hrest] at h
          simp only [Option.some.injEq] at h
          exact List.mem_cons_of_mem m0 (ih m (by rw [hrest, h]))
      | none =>
          rw [hrest] at h
          by_cases hu : m0.role = Role.user
          · rw [if_pos hu] at h
            simp only [Option.some.injEq] at h
            rw [← h]
            exact List.mem_cons_self m0 rest
          · rw [if_neg hu] at h
            simp at h

theorem lastUser_none_correspond :
    ∀ {items : List TruncItem} {msgs : List Message},
      List.Forall₂ itemAligned items msgs →
      (lastUserMsg msgs = none ↔ lastUserIdx items = none) := by
  intro items msgs hF
  induction hF with
  | nil => simp [lastUserMsg, lastUserIdx]
  | cons hR hF ih =>
      rename_i it0 m0 items' msgs'
      simp only [lastUserMsg, lastUserIdx]
      cases hrest : lastUserMsg msgs' with
      | some u =>
          have : lastUserIdx items' ≠ none := by
            intro hnone
            rw [ih.mpr hnone] at hrest
            simp at hrest
          cases hit : lastUserIdx items' with
          | some k => simp
          | none => exact absurd hit this
      | none =>
          rw [ih.mp hrest]
          have hrole : it0.msg.role = m0.role := itemAligned_role hR
          by_cases hu : m0.role = Role.user
          · rw [if_pos hu, if_pos (by rw [hrole]; exact hu)]
            simp
          · rw [if_neg hu, if_neg (by rw [hrole]; exact hu)]
            simp

theorem lastUser_correspond :
    ∀ {items : List TruncItem} {msgs : List Message},
      List.Forall₂ itemAligned items msgs →
      ∀ m, lastUserMsg msgs = some m →
        ∃ it, it ∈ items ∧ it.msg = m ∧ lastUserIdx items = some it.index := by
  intro items msgs hF
  induction hF with
  | nil => intro m h; simp [lastUserMsg] at h
  | cons hR hF ih =>
      rename_i it0 m0 items' msgs'
      intro m h
      simp only [lastUserMsg] at h
      cases hrest : lastUserMsg msgs' with
      | some u =>
          rw [hrest] at h
          simp only [Option.some.injEq] at h
          subst h
          obtain ⟨it, hmem, hmsg, hidx⟩ := ih u hrest
          refine ⟨it, List.mem_cons_of_mem it0 hmem, hmsg, ?_⟩
          simp only [lastUserIdx]
          rw [hidx]
      | none =>
          rw [hrest] at h
          by_cases hu : m0.role = Role.user
          · rw [if_pos hu] at h
            simp only [Option.some.injEq] at h
            subst h
            have hrole : it0.msg.role = m0.role := itemAligned_role hR
            have hmsg : it0.msg = m0 :=
              itemAligned_msg_of_not_tool hR (by rw [hu]; decide)
            refine ⟨it0, List.mem_cons_self it0 items', hmsg, ?_⟩
            simp only [lastUserIdx]
            rw [(lastUser_none_correspond hF).mp hrest]
            rw [if_pos (by rw [hrole]; exact hu)]
          · rw [if_neg hu] at h
            simp at h

theorem truncate_messages_path1 (messages : List Message) (model : String)
    (targetTokens : Option Nat)
    (h1 : (messages.map estimateMessageTokens).sum
        ≤ targetTokens.getD (getDynamicTargetLimit model)) :
    (truncateMessagesSmart messages model targetTokens).messages = messages := by
  unfold truncateMessagesSmart
  simp only []
  rw [if_pos h1]

theorem truncate_messages_path2 (messages : List Message) (model : String)
    (targetTokens : Option Nat)
    (h1 : ¬ (messages.map estimateMessageTokens).sum
        ≤ targetTokens.getD (getDynamicTargetLimit model))
    (h2 : ((compressItems (categorizeAll messages)).map (fun it => it.tokens)).sum
        ≤ targetTokens.getD (getDynamicTargetLimit model)) :
    (truncateMessagesSmart messages model targetTokens).messages
      = (compressItems (categorizeAll messages)).map (fun it => it.msg) := by
  unfold truncateMessagesSmart
  simp only []
  rw [if_neg h1, if_pos h2]

theorem truncate_messages_path3 (messages : List Message) (model : String)
    (targetTokens : Option Nat)
    (h1 : ¬ (messages.map estimateMessageTokens).sum
        ≤ targetTokens.getD (getDynamicTargetLimit model))
    (h2 : ¬ ((compressItems (categorizeAll messages)).map (fun it => it.tokens)).sum
        ≤ targetTokens.getD (getDynamicTargetLimit model)) :
    ∃ p : TruncItem → Bool,
      (truncateMessagesSmart messages model targetTokens).messages
        = (sortByIdx ((compressItems (categorizeAll messages)).filter p)).map
            (fun it => it.msg)
      ∧ ∀ it : TruncItem,
          it.index ∈ mustKeepList (compressItems (categorizeAll messages)) →
            p it = true := by
  refine ⟨fun it => decide (it.index ∈ mustKeepList (compressItems (categorizeAll messages))
      ∨ it.index ∈ greedyKeep
          (targetTokens.getD (getDynamicTargetLimit model)
            - (((compressItems (categorizeAll messages)).filter (fun it =>
                  decide (it.index ∈ mustKeepList (compressItems (categorizeAll messages))))).map
                (fun it => it.tokens)).sum)
          ((compressItems (categorizeAll messages)).filter (fun it =>
            decide (¬ it.index ∈ mustKeepList (compressItems (categorizeAll messages))
              ∧ it.category = MessageCategory.regular)))), ?_, ?_⟩
  · unfold truncateMessagesSmart
    simp only []
    rw [if_neg h1, if_neg h2]
  · intro it hmk
    simp only [decide_eq_true_eq]
    exact Or.inl hmk

theorem categorizeMessage_system {m : Message} (h : m.role = Role.system) :
    categorizeMessage m = MessageCategory.system := by
  unfold categorizeMessage
  rw [if_pos h]

/-- C5 amended: the budget fitter's output corresponds to a subsequence
of its input in original order, where each kept message is either the
input message verbatim or (for a tool-response over the compression
ceiling) its compressed copy; every system message and the most recent
user message of the input survive verbatim. -/
theorem truncate_structure (messages : List Message) (model : String)
    (targetTokens : Option Nat) :
    SublistMod variantOf (truncateMessagesSmart messages model targetTokens).messages
        messages
    ∧ (∀ m ∈ messages, m.role = Role.system →
        m ∈ (truncateMessagesSmart messages model targetTokens).messages)
    ∧ (∀ m, lastUserMsg messages = some m →
        m ∈ (truncateMessagesSmart messages model targetTokens).messages) := by
  by_cases h1 : (messages.map estimateMessageTokens).sum
      ≤ targetTokens.getD (getDynamicTargetLimit model)
  · rw [truncate_messages_path1 messages model targetTokens h1]
    exact ⟨SublistMod_refl variantOf (fun m => Or.inl rfl) messages,
      fun m hm _ => hm,
      fun m hm => lastUserMsg_mem _ m hm⟩
  · have halign := compressItems_aligned messages
    have hpw := compressItems_pairwise messages
    have hvar : List.Forall₂ (fun m' m => variantOf m m')
        ((compressItems (categorizeAll messages)).map (fun it => it.msg)) messages := by
      rw [List.forall₂_map_left_iff]
      exact halign.imp (fun it m h => h.2)
    by_cases h2 : ((compressItems (categorizeAll messages)).map (fun it => it.tokens)).sum
        ≤ targetTokens.getD (getDynamicTargetLimit model)
    · rw [truncate_messages_path2 messages model targetTokens h1 h2]
      refine ⟨SublistMod_of_sublist _ hvar (List.Sublist.refl _), ?_, ?_⟩
      · intro m hm hrole
        obtain ⟨i, hi, hieq⟩ := List.getElem_of_mem hm
        have hget : messages[i]? = some m := by
          rw [List.getElem?_eq_getElem hi, hieq]
        obtain ⟨it, hit, hal⟩ := forall₂_getElem halign hget
        have hmsg : it.msg = m :=
          itemAligned_msg_of_not_tool hal (by rw [hrole]; decide)
        refine List.mem_map.mpr ⟨it, ?_, hmsg⟩
        obtain ⟨hlt, hg⟩ := List.getElem?_eq_some_iff.mp hit
        exact hg ▸ List.getElem_mem hlt
      · intro m hm
        obtain ⟨it, hmem, hmsg, -⟩ := lastUser_correspond halign m hm
        exact List.mem_map.mpr ⟨it, hmem, hmsg⟩
    · obtain ⟨p, hmsgs, hpk⟩ := truncate_messages_path3 messages model targetTokens h1 h2
      have hsorteq : sortByIdx ((compressItems (categorizeAll messages)).filter p)
          = (compressItems (categorizeAll messages)).filter p :=
        sortByIdx_eq_self _ (hpw.sublist (List.filter_sublist _))
      rw [hmsgs, hsorteq]
      refine ⟨SublistMod_of_sublist _ hvar
        (List.Sublist.map _ (List.filter_sublist _)), ?_, ?_⟩
      · intro m hm hrole
        obtain ⟨i, hi, hieq⟩ := List.getElem_of_mem hm
        have hget : messages[i]? = some m := by
          rw [List.getElem?_eq_getElem hi, hieq]
        obtain ⟨it, hit, hal⟩ := forall₂_getElem halign hget
        have hmsg : it.msg = m :=
          itemAligned_msg_of_not_tool hal (by rw [hrole]; decide)
        have hitmem : it ∈ compressItems (categorizeAll messages) := by
          obtain ⟨hlt, hg⟩ := List.getElem?_eq_some_iff.mp hit
          exact hg ▸ List.getElem_mem hlt
        have hcat : it.category = MessageCategory.system := by
          rw [hal.1, categorizeMessage_system hrole]
        have hsysidx : it.index ∈ systemIndices (compressItems (categorizeAll messages)) := by
          unfold systemIndices
          exact List.mem_map.mpr ⟨it, List.mem_filter.mpr ⟨hitmem, by simp [hcat]⟩, rfl⟩
        have hmk : it.index ∈ mustKeepList (compressItems (categorizeAll messages)) := by
          unfold mustKeepList
          exact List.mem_append_left _ (List.mem_append_left _ hsysidx)
        refine List.mem_map.mpr ⟨it, List.mem_filter.mpr ⟨hitmem, hpk it hmk⟩, hmsg⟩
      · intro m hm
        obtain ⟨it, hmem, hmsg, hidx⟩ := lastUser_correspond halign m hm
        have hmk : it.index ∈ mustKeepList (compressItems (categorizeAll messages)) := by
          unfold mustKeepList
          refine List.mem_append_right _ ?_
          rw [hidx]
          exact List.mem_singleton.mpr rfl
        refine List.mem_map.mpr ⟨it, List.mem_filter.mpr ⟨hmem, hpk it hmk⟩, hmsg⟩

/-- A system message used in concrete checks. -/
def exSystem : Message :=
  { role := Role.system, content := Content.str ("sys").data
  , tool_calls := none, tool_call_id := none }

theorem truncate_structure_witness :
    SublistMod variantOf
        (truncateMessagesSmart [exSystem, exUser] "gpt-4" none).messages
        [exSystem, exUser]
      ∧ exSystem ∈ (truncateMessagesSmart [exSystem, exUser] "gpt-4" none).messages
      ∧ exUser ∈ (truncateMessagesSmart [exSystem, exUser] "gpt-4" none).messages := by
  have h := truncate_structure [exSystem, exUser] "gpt-4" none
  exact ⟨h.1,
    h.2.1 exSystem (List.mem_cons_self exSystem [exUser]) rfl,
    h.2.2 exUser (by decide)⟩

/-- The compressed form of `bigToolResult` produced by the fitter's
compression pass. -/
def bigCompressedContent : List Char :=
  (List.replicate 40000 'a').take 17271
    ++ elisionMarker 14094 ++ lastChars (List.replicate 40000 'a') 8635

theorem bigCompressedContent_length : bigCompressedContent.length = 25939 := by
  unfold bigCompressedContent lastChars
  rw [List.length_append, List.length_append, List.length_take,
    List.length_replicate, List.length_drop, List.length_replicate,
    show (elisionMarker 14094).length = 33 from by decide]
  norm_num

/-- The compressed form of `bigToolResult`, as a message. -/
def bigCompressedMsg : Message :=
  { role := Role.tool, content := Content.str bigCompressedContent
  , tool_calls := none, tool_call_id := some ("x").data }

theorem bigToolResult_compressed :
    compressToolResult bigToolResult 8000 = bigCompressedMsg := by
  have hcost := bigToolResult_cost
  have h := (compress_str_eval bigToolResult (List.replicate 40000 'a') rfl).2
  rw [hcost, List.length_replicate] at h
  obtain ⟨heq, -, -⟩ := h (by omega) (by norm_num [claimTail, claimRetained])
  have hch : claimHead 40000 10005 = 17271 := by norm_num [claimHead, claimRetained]
  have hct : claimTail 40000 10005 = 8635 := by norm_num [claimTail, claimRetained]
  rw [hch, hct] at heq
  rw [show (40000 : Nat) - 17271 - 8635 = 14094 from by norm_num] at heq
  rw [heq]
  rfl

theorem bigCompressedMsg_cost :
    estimateMessageTokens bigCompressedMsg = 6489 := by
  unfold bigCompressedMsg
  rw [estimate_tool_str bigCompressedContent ("x").data (by decide)]
  rw [bigCompressedContent_length]
  norm_num

theorem categorize_big : categorizeMessage bigToolResult = MessageCategory.tool_context := by
  unfold categorizeMessage
  rw [if_neg (by decide : ¬ (bigToolResult.role = Role.system))]
  rw [if_pos (by decide : bigToolResult.role = Role.tool)]

theorem compressItem_single_big :
    compressItem { msg := bigToolResult, category := MessageCategory.tool_context
                 , tokens := estimateMessageTokens bigToolResult, index := 0 }
      = { msg := bigCompressedMsg
        , category := MessageCategory.tool_context
        , tokens := 6489, index := 0 } := by
  have hcost := bigToolResult_cost
  have hccost : estimateMessageTokens (compressToolResult bigToolResult 8000) = 6489 := by
    rw [bigToolResult_compressed, bigCompressedMsg_cost]
  unfold compressItem
  simp only []
  rw [if_pos (⟨rfl, by omega⟩ :
    bigToolResult.role = Role.tool ∧ 8000 < estimateMessageTokens bigToolResult)]
  rw [if_pos (by rw [hccost, hcost]; norm_num :
    estimateMessageTokens (compressToolResult bigToolResult 8000)
      < estimateMessageTokens bigToolResult)]
  rw [hccost, bigToolResult_compressed]

theorem compressItems_single_big :
    compressItems (categorizeAll [bigToolResult])
      = [{ msg := bigCompressedMsg
         , category := MessageCategory.tool_context
         , tokens := 6489, index := 0 }] := by
  unfold categorizeAll idxZip compressItems
  simp only [List.map_cons, List.map_nil]
  rw [categorize_big, compressItem_single_big]
  rfl

/-- C5 counterexample: with a single over-ceiling tool result and target
9000 the fitter compresses the message, so its output message (25939 +
marker characters of content) differs from the only input message
(40000 characters) — the output is NOT a subsequence of the input under
message equality. -/
theorem truncate_not_plain_sublist :
    ¬ List.Sublist (truncateMessagesSmart [bigToolResult] "gpt-4" (some 9000)).messages
        [bigToolResult] := by
  have h1 : ¬ (List.map estimateMessageTokens [bigToolResult]).sum
      ≤ (some 9000 : Option Nat).getD (getDynamicTargetLimit "gpt-4") := by
    rw [List.map_cons, List.map_nil, List.sum_cons, List.sum_nil, bigToolResult_cost,
      Option.getD_some]
    norm_num
  have h2 : ((compressItems (categorizeAll [bigToolResult])).map (fun it => it.tokens)).sum
      ≤ (some 9000 : Option Nat).getD (getDynamicTargetLimit "gpt-4") := by
    rw [compressItems_single_big, Option.getD_some, List.map_cons, List.map_nil,
      List.sum_cons, List.sum_nil]
    show (6489 : Nat) + 0 ≤ 9000
    norm_num
  rw [truncate_messages_path2 [bigToolResult] "gpt-4" (some 9000) h1 h2,
    compressItems_single_big, List.map_cons, List.map_nil]
  show ¬ List.Sublist [bigCompressedMsg] [bigToolResult]
  rw [List.singleton_sublist, List.mem_singleton]
  intro habs
  have hcnt := congrArg Message.content habs
  have e1 : bigCompressedMsg.content = Content.str bigCompressedContent := rfl
  have e2 : bigToolResult.content = Content.str (List.replicate 40000 'a') := rfl
  rw [e1, e2] at hcnt
  have hlists := Content.str.inj hcnt
  have hlen := congrArg List.length hlists
  rw [bigCompressedContent_length, List.length_replicate] at hlen
  norm_num at hlen
